import Mathlib

/-!
Verification of the JSON string-escaping engine in
`crates/oxc_estree/src/serialize/strings.rs`.

Strings are embedded as lists of byte values (`List Nat`, each element a byte
value `< 256`; the UTF-8 validity predicate enforces the range where it
matters).  The output buffer is modelled as the list of bytes appended, and a
Rust panic (a failed `unwrap` on the byte iterator, or a failed `assert_eq!`)
is modelled as `Option.none`.

`write_str_loop` is a faithful embedding of the scanning loop of `write_str`:
it keeps the original `start`/`index` cursor pair and flushes pending verbatim
runs with `List.drop`/`List.take`, exactly as the Rust code slices
`&bytes[start..index]`.  Besides the output bytes it also returns the list of
`(start, end)` index ranges of every `print_bytes_unchecked(&bytes[..])` bulk
append, which the safety claims reason about.  `scanBytes` is a byte-at-a-time
restatement of the same scan, proved equal to the loop (`write_str_eq_scan`
below); the per-claim proofs mostly go through `scanBytes`.
-/

set_option maxHeartbeats 1000000
set_option maxRecDepth 20000

/-- The `Escape` enum of the source: classification of a byte value.
`NONE` is the source's `__ = 0` variant (byte needs no escaping). -/
inductive Escape where
  | NONE
  | BB
  | TT
  | NN
  | FF
  | RR
  | QU
  | BS
  | LO
  | UU
deriving DecidableEq, Repr

open Escape

/-- The `u8` discriminant of each `Escape` variant in the source
(`BB = b'b'`, ..., `LO` = first byte of U+FFFD = 0xEF, `UU = b'u'`). -/
def Escape.toByte : Escape → Nat
  | NONE => 0
  | BB => 0x62
  | TT => 0x74
  | NN => 0x6E
  | FF => 0x66
  | RR => 0x72
  | QU => 0x22
  | BS => 0x5C
  | LO => 0xEF
  | UU => 0x75

/-- `create_table` of the source: the 256-entry escape lookup table,
parameterized by the classification `lo` given to byte 0xEF. -/
def create_table (lo : Escape) : List Escape :=
  [
  --   1   2   3   4   5   6   7   8   9   A   B   C   D   E   F
    UU, UU, UU, UU, UU, UU, UU, UU, BB, TT, NN, UU, FF, RR, UU, UU, -- 0
    UU, UU, UU, UU, UU, UU, UU, UU, UU, UU, UU, UU, UU, UU, UU, UU, -- 1
    NONE, NONE, QU, NONE, NONE, NONE, NONE, NONE, NONE, NONE, NONE, NONE, NONE, NONE, NONE, NONE, -- 2
    NONE, NONE, NONE, NONE, NONE, NONE, NONE, NONE, NONE, NONE, NONE, NONE, NONE, NONE, NONE, NONE, -- 3
    NONE, NONE, NONE, NONE, NONE, NONE, NONE, NONE, NONE, NONE, NONE, NONE, NONE, NONE, NONE, NONE, -- 4
    NONE, NONE, NONE, NONE, NONE, NONE, NONE, NONE, NONE, NONE, NONE, NONE, BS, NONE, NONE, NONE, -- 5
    NONE, NONE, NONE, NONE, NONE, NONE, NONE, NONE, NONE, NONE, NONE, NONE, NONE, NONE, NONE, NONE, -- 6
    NONE, NONE, NONE, NONE, NONE, NONE, NONE, NONE, NONE, NONE, NONE, NONE, NONE, NONE, NONE, NONE, -- 7
    NONE, NONE, NONE, NONE, NONE, NONE, NONE, NONE, NONE, NONE, NONE, NONE, NONE, NONE, NONE, NONE, -- 8
    NONE, NONE, NONE, NONE, NONE, NONE, NONE, NONE, NONE, NONE, NONE, NONE, NONE, NONE, NONE, NONE, -- 9
    NONE, NONE, NONE, NONE, NONE, NONE, NONE, NONE, NONE, NONE, NONE, NONE, NONE, NONE, NONE, NONE, -- A
    NONE, NONE, NONE, NONE, NONE, NONE, NONE, NONE, NONE, NONE, NONE, NONE, NONE, NONE, NONE, NONE, -- B
    NONE, NONE, NONE, NONE, NONE, NONE, NONE, NONE, NONE, NONE, NONE, NONE, NONE, NONE, NONE, NONE, -- C
    NONE, NONE, NONE, NONE, NONE, NONE, NONE, NONE, NONE, NONE, NONE, NONE, NONE, NONE, NONE, NONE, -- D
    NONE, NONE, NONE, NONE, NONE, NONE, NONE, NONE, NONE, NONE, NONE, NONE, NONE, NONE, NONE, lo, -- E
    NONE, NONE, NONE, NONE, NONE, NONE, NONE, NONE, NONE, NONE, NONE, NONE, NONE, NONE, NONE, NONE -- F
  ]

/-- `static ESCAPE` of the source: the standard-mode table. -/
def ESCAPE : List Escape := create_table Escape.NONE

/-- `static ESCAPE_LONE_SURROGATES` of the source: same table but with
`Escape::LO` at byte 0xEF. -/
def ESCAPE_LONE_SURROGATES : List Escape := create_table Escape.LO

/-- Table lookup `table[byte as usize]` (out-of-range reads, which cannot
occur for byte values, default to `NONE`). -/
def tableGet (table : List Escape) (byte : Nat) : Escape :=
  table.getD byte Escape.NONE

/-- Closed-form restatement of the table rows of `create_table`, used for
symbolic reasoning; proved to agree with the table by `tableGet_ESCAPE` /
`tableGet_LONE` below.  `escCore` is the part shared by both tables. -/
def escCore (b : Nat) : Escape :=
  if b = 0x08 then BB
  else if b = 0x09 then TT
  else if b = 0x0A then NN
  else if b = 0x0C then FF
  else if b = 0x0D then RR
  else if b ≤ 0x1F then UU
  else if b = 0x22 then QU
  else if b = 0x5C then BS
  else NONE

/-- Closed form of a full table: `escCore` everywhere except byte 0xEF,
which gets the parameter `lo`. -/
def escFn (lo : Escape) (b : Nat) : Escape :=
  if b = 0xEF then lo else escCore b

/-- `static HEX_DIGITS: [u8; 16] = *b"0123456789abcdef"` of the source. -/
def HEX_DIGITS : List Nat :=
  [0x30, 0x31, 0x32, 0x33, 0x34, 0x35, 0x36, 0x37, 0x38, 0x39,
   0x61, 0x62, 0x63, 0x64, 0x65, 0x66]

/-- `write_char_escape` of the source: the bytes appended for one escaped
byte.  A non-`UU` escape is `\` plus the variant's letter; `UU` is
`\u00` plus two lowercase hex digits of the byte. -/
def write_char_escape (escape : Escape) (byte : Nat) : List Nat :=
  if escape ≠ Escape.UU then
    [0x5C, escape.toByte]
  else
    [0x5C, 0x75, 0x30, 0x30,
     HEX_DIGITS.getD (byte >>> 4) 0, HEX_DIGITS.getD (byte &&& 0xF) 0]

/-- The scanning loop of `write_str` in the source, embedded faithfully.

Arguments mirror the Rust locals: `bytes` is the whole input, the scan state
is the remaining iterator contents (`rest`, always `bytes.drop index`), the
current byte `index`, and the `start` of the pending verbatim run.  The result
is `none` when the Rust code would panic (an `unwrap` of an exhausted iterator
inside the 7-byte lookahead, or the `assert_eq!` that all 4 lookahead hex
bytes are ASCII).  Otherwise it returns the appended output bytes together
with the list of `(start, end)` ranges of every `print_bytes_unchecked`
bulk append of a slice `&bytes[start..end]`. -/
def write_str_loop (bytes : List Nat) (table : List Escape) (lone : Bool) :
    List Nat → Nat → Nat → Option (List Nat × List (Nat × Nat))
  | [], _, start =>
    -- trailing flush: `if start < bytes.len() { print_bytes_unchecked(&bytes[start..]) }`
    if start < bytes.length then some (bytes.drop start, [(start, bytes.length)])
    else some ([], [])
  | byte :: rest, index, start =>
    let escape := tableGet table byte
    if escape = Escape.NONE then
      write_str_loop bytes table lone rest (index + 1) start
    else if lone = true ∧ escape = Escape.LO then
      -- lone surrogate handling: 2-byte lookahead for the rest of U+FFFD
      match rest with
      | next1 :: next2 :: rest2 =>
        if next1 = 0xBF ∧ next2 = 0xBD then
          -- 4-byte lookahead for the hex digits
          match rest2 with
          | hex1 :: hex2 :: hex3 :: hex4 :: rest3 =>
            let flush := (bytes.drop start).take (index - start)
            if [hex1, hex2, hex3, hex4] = [0x66, 0x66, 0x66, 0x64] then
              -- `hex == *b"fffd"`: print the chunk, then a literal U+FFFD
              (write_str_loop bytes table lone rest3 (index + 7) (index + 7)).map
                (fun pr => (flush ++ [0xEF, 0xBF, 0xBD] ++ pr.1, (start, index) :: pr.2))
            else if hex1 &&& 0x80 = 0 ∧ hex2 &&& 0x80 = 0 ∧ hex3 &&& 0x80 = 0 ∧
                hex4 &&& 0x80 = 0 then
              -- print the chunk, `\u`, then the 4 hex bytes verbatim
              (write_str_loop bytes table lone rest3 (index + 7) (index + 7)).map
                (fun pr =>
                  (flush ++ [0x5C, 0x75, hex1, hex2, hex3, hex4] ++ pr.1,
                   (start, index) :: pr.2))
            else
              -- `assert_eq!(u32::from_ne_bytes(hex) & 0x8080_8080, 0)` fails
              none
          | _ => none
        else
          -- some other character starting with 0xEF: continue the loop
          -- (the iterator has already consumed `next1` and `next2`)
          write_str_loop bytes table lone rest2 (index + 3) start
      | _ => none
    else
      let flush := if start < index then (bytes.drop start).take (index - start) else []
      let ranges := if start < index then [(start, index)] else []
      (write_str_loop bytes table lone rest (index + 1) (index + 1)).map
        (fun pr => (flush ++ write_char_escape escape byte ++ pr.1, ranges ++ pr.2))

/-- `write_str` of the source: opening quote, scan, closing quote.
The `table == &ESCAPE_LONE_SURROGATES` pointer comparison of the source is
hoisted out of the loop (its value is constant during the scan). -/
def write_str (s : List Nat) (table : List Escape) : Option (List Nat) :=
  (write_str_loop s table (decide (table = ESCAPE_LONE_SURROGATES)) s 0 0).map
    (fun pr => [0x22] ++ pr.1 ++ [0x22])

/-- The `(start, end)` ranges of all verbatim bulk appends performed by
`write_str` (`none` when serialization panics). -/
def write_str_ranges (s : List Nat) (table : List Escape) : Option (List (Nat × Nat)) :=
  (write_str_loop s table (decide (table = ESCAPE_LONE_SURROGATES)) s 0 0).map
    (fun pr => pr.2)

/-- `JsonSafeString::serialize`: quote + raw bytes + quote, no scanning. -/
def JsonSafeString_serialize (s : List Nat) : List Nat :=
  [0x22] ++ s ++ [0x22]

/-- `<str as ESTree>::serialize`: `write_str` with the plain table. -/
def str_serialize (s : List Nat) : Option (List Nat) :=
  write_str s ESCAPE

/-- `LoneSurrogatesString::serialize`: `write_str` with the lone-surrogate
table. -/
def LoneSurrogatesString_serialize (s : List Nat) : Option (List Nat) :=
  write_str s ESCAPE_LONE_SURROGATES

/-- Byte-at-a-time restatement of the scanning loop (same output, pending
verbatim runs emitted byte by byte instead of being flushed in bulk).
Proved equal to the faithful loop in `write_str_eq_scan`. -/
def scanBytes (table : List Escape) (lone : Bool) : List Nat → Option (List Nat)
  | [] => some []
  | byte :: rest =>
    let escape := tableGet table byte
    if escape = Escape.NONE then
      (scanBytes table lone rest).map (fun o => byte :: o)
    else if lone = true ∧ escape = Escape.LO then
      match rest with
      | next1 :: next2 :: rest2 =>
        if next1 = 0xBF ∧ next2 = 0xBD then
          match rest2 with
          | hex1 :: hex2 :: hex3 :: hex4 :: rest3 =>
            if [hex1, hex2, hex3, hex4] = [0x66, 0x66, 0x66, 0x64] then
              (scanBytes table lone rest3).map (fun o => [0xEF, 0xBF, 0xBD] ++ o)
            else if hex1 &&& 0x80 = 0 ∧ hex2 &&& 0x80 = 0 ∧ hex3 &&& 0x80 = 0 ∧
                hex4 &&& 0x80 = 0 then
              (scanBytes table lone rest3).map
                (fun o => [0x5C, 0x75, hex1, hex2, hex3, hex4] ++ o)
            else none
          | _ => none
        else
          (scanBytes table lone rest2).map (fun o => byte :: next1 :: next2 :: o)
      | _ => none
    else
      (scanBytes table lone rest).map (fun o => write_char_escape escape byte ++ o)

/-- A continuation byte of a multi-byte UTF-8 sequence (0x80–0xBF). -/
def contB (b : Nat) : Bool :=
  decide (0x80 ≤ b ∧ b ≤ 0xBF)

/-- Genuine UTF-8 validity of a byte sequence (RFC 3629: no overlong forms,
no surrogate code points, code points at most U+10FFFF). -/
def utf8Valid : List Nat → Bool
  | [] => true
  | b :: rest =>
    if b ≤ 0x7F then utf8Valid rest
    else if 0xC2 ≤ b ∧ b ≤ 0xDF then
      decide (1 ≤ rest.length) && contB (rest.getD 0 0) && utf8Valid (rest.drop 1)
    else if b = 0xE0 then
      decide (2 ≤ rest.length) && decide (0xA0 ≤ rest.getD 0 0 ∧ rest.getD 0 0 ≤ 0xBF) &&
        contB (rest.getD 1 0) && utf8Valid (rest.drop 2)
    else if (0xE1 ≤ b ∧ b ≤ 0xEC) ∨ (0xEE ≤ b ∧ b ≤ 0xEF) then
      decide (2 ≤ rest.length) && contB (rest.getD 0 0) && contB (rest.getD 1 0) &&
        utf8Valid (rest.drop 2)
    else if b = 0xED then
      decide (2 ≤ rest.length) && decide (0x80 ≤ rest.getD 0 0 ∧ rest.getD 0 0 ≤ 0x9F) &&
        contB (rest.getD 1 0) && utf8Valid (rest.drop 2)
    else if b = 0xF0 then
      decide (3 ≤ rest.length) && decide (0x90 ≤ rest.getD 0 0 ∧ rest.getD 0 0 ≤ 0xBF) &&
        contB (rest.getD 1 0) && contB (rest.getD 2 0) && utf8Valid (rest.drop 3)
    else if 0xF1 ≤ b ∧ b ≤ 0xF3 then
      decide (3 ≤ rest.length) && contB (rest.getD 0 0) && contB (rest.getD 1 0) &&
        contB (rest.getD 2 0) && utf8Valid (rest.drop 3)
    else if b = 0xF4 then
      decide (3 ≤ rest.length) && decide (0x80 ≤ rest.getD 0 0 ∧ rest.getD 0 0 ≤ 0x8F) &&
        contB (rest.getD 1 0) && contB (rest.getD 2 0) && utf8Valid (rest.drop 3)
    else false
  termination_by s => s.length
  decreasing_by
    all_goals simp [List.length_drop]
    all_goals omega

/-- No occurrence of the 3-byte UTF-8 encoding of U+FFFD (`EF BF BD`). -/
def noFFFD : List Nat → Bool
  | [] => true
  | b :: rest =>
    if b = 0xEF ∧ rest.take 2 = [0xBF, 0xBD] then false
    else noFFFD rest

/-- Value of an ASCII hex digit byte (`0`–`9`, `a`–`f`, `A`–`F`). -/
def hexVal (b : Nat) : Option Nat :=
  if 0x30 ≤ b ∧ b ≤ 0x39 then some (b - 0x30)
  else if 0x61 ≤ b ∧ b ≤ 0x66 then some (b - 0x61 + 10)
  else if 0x41 ≤ b ∧ b ≤ 0x46 then some (b - 0x41 + 10)
  else none

/-- The byte is an ASCII hex digit. -/
def isHexDigit (b : Nat) : Bool :=
  (hexVal b).isSome

/-- Every occurrence of the U+FFFD bytes `EF BF BD` is followed by exactly
4 ASCII hex digit bytes: the documented input contract of the
lone-surrogate-aware mode. -/
def markersOk : List Nat → Bool
  | [] => true
  | b :: rest =>
    if b = 0xEF ∧ rest.take 2 = [0xBF, 0xBD] then
      match rest with
      | _ :: _ :: h1 :: h2 :: h3 :: h4 :: rest3 =>
        isHexDigit h1 && isHexDigit h2 && isHexDigit h3 && isHexDigit h4 &&
          markersOk rest3
      | _ => false
    else markersOk rest

/-- The input contains at least one occurrence of the internal 7-byte
lone-surrogate convention (U+FFFD bytes followed by 4 ASCII hex digits). -/
def hasMarker : List Nat → Bool
  | [] => false
  | b :: rest =>
    (decide (b = 0xEF) &&
      match rest with
      | c1 :: c2 :: h1 :: h2 :: h3 :: h4 :: _ =>
        decide (c1 = 0xBF ∧ c2 = 0xBD) && isHexDigit h1 && isHexDigit h2 &&
          isHexDigit h3 && isHexDigit h4
      | _ => false) ||
    hasMarker rest

/-- Lowercase ASCII hex digit of a value `< 16` (what the claims mean by
"lowercase hex digit"). -/
def lowHexDigit (n : Nat) : Nat :=
  if n < 10 then 0x30 + n else 0x57 + n

/-- The escape bytes the spec predicts for a single escaped byte: the named
two-byte escapes for 0x08/0x09/0x0A/0x0C/0x0D/0x22/0x5C, and the six-byte
`\u00XX` escape (lowercase hex) for every other byte below 0x20. -/
def expectedEscapeBytes (b : Nat) : List Nat :=
  if b = 0x08 then [0x5C, 0x62]
  else if b = 0x09 then [0x5C, 0x74]
  else if b = 0x0A then [0x5C, 0x6E]
  else if b = 0x0C then [0x5C, 0x66]
  else if b = 0x0D then [0x5C, 0x72]
  else if b = 0x22 then [0x5C, 0x22]
  else if b = 0x5C then [0x5C, 0x5C]
  else [0x5C, 0x75, 0x30, 0x30, lowHexDigit (b / 16), lowHexDigit (b % 16)]

/-- The output bytes the spec predicts for one resolved 7-byte lone-surrogate
marker: the literal U+FFFD bytes when the digits spell `fffd`, otherwise
`\u` followed by the 4 digit bytes verbatim. -/
def markerOut (h1 h2 h3 h4 : Nat) : List Nat :=
  if [h1, h2, h3, h4] = [0x66, 0x66, 0x66, 0x64] then [0xEF, 0xBF, 0xBD]
  else [0x5C, 0x75, h1, h2, h3, h4]

/-- Number of unescaped `"` bytes in a JSON string body, scanned with the
standard backslash-escape flag (`esc` true when the previous byte was an
unconsumed backslash). -/
def uqCount : List Nat → Bool → Nat
  | [], _ => 0
  | b :: rest, esc =>
    if esc then uqCount rest false
    else if b = 0x5C then uqCount rest true
    else if b = 0x22 then uqCount rest false + 1
    else uqCount rest false

/-- The backslash-escape flag after scanning the given bytes. -/
def flagAfter : List Nat → Bool → Bool
  | [], esc => esc
  | b :: rest, esc =>
    flagAfter rest (if esc then false else decide (b = 0x5C))

/-- UTF-8 encoding of a Unicode scalar value (standard 1–4 byte encoding). -/
def utf8Encode (n : Nat) : List Nat :=
  if n ≤ 0x7F then [n]
  else if n ≤ 0x7FF then [0xC0 + n / 64, 0x80 + n % 64]
  else if n ≤ 0xFFFF then [0xE0 + n / 4096, 0x80 + n / 64 % 64, 0x80 + n % 64]
  else [0xF0 + n / 262144, 0x80 + n / 4096 % 64, 0x80 + n / 64 % 64, 0x80 + n % 64]

/-- Standard JSON string-body decoding (the mathematical inverse used by the
round-trip claim): backslash escapes `\b \t \n \f \r \" \\ \/` and
`\uXXXX` (whose code point is re-encoded as UTF-8); every other byte is
passed through unchanged; a malformed escape fails. -/
def unescape : List Nat → Option (List Nat)
  | [] => some []
  | b :: rest =>
    if b = 0x5C then
      match rest with
      | e :: rest2 =>
        if e = 0x62 then (unescape rest2).map (fun o => 0x08 :: o)
        else if e = 0x74 then (unescape rest2).map (fun o => 0x09 :: o)
        else if e = 0x6E then (unescape rest2).map (fun o => 0x0A :: o)
        else if e = 0x66 then (unescape rest2).map (fun o => 0x0C :: o)
        else if e = 0x72 then (unescape rest2).map (fun o => 0x0D :: o)
        else if e = 0x22 then (unescape rest2).map (fun o => 0x22 :: o)
        else if e = 0x5C then (unescape rest2).map (fun o => 0x5C :: o)
        else if e = 0x2F then (unescape rest2).map (fun o => 0x2F :: o)
        else if e = 0x75 then
          match rest2 with
          | d1 :: d2 :: d3 :: d4 :: rest3 =>
            match hexVal d1, hexVal d2, hexVal d3, hexVal d4 with
            | some v1, some v2, some v3, some v4 =>
              (unescape rest3).map
                (fun o => utf8Encode (v1 * 4096 + v2 * 256 + v3 * 16 + v4) ++ o)
            | _, _, _, _ => none
          | _ => none
        else none
      | [] => none
    else (unescape rest).map (fun o => b :: o)

/-- A byte sequence is inert for a given scan when the scan passes it through
verbatim and continues independently afterwards (the defining property of a
pending verbatim run of the loop). -/
def Inert (table : List Escape) (lone : Bool) (u : List Nat) : Prop :=
  ∀ t, scanBytes table lone (u ++ t) = (scanBytes table lone t).map (fun o => u ++ o)

/-! ### Table facts -/

/-- The standard table agrees with its closed form. -/
theorem tableGet_ESCAPE (b : Nat) : tableGet ESCAPE b = escFn Escape.NONE b := by
  by_cases h : b < 256
  · exact (by decide : ∀ b' < 256, tableGet ESCAPE b' = escFn Escape.NONE b') b h
  · have hlen : ESCAPE.length = 256 := by decide
    rw [tableGet, List.getD_eq_default _ _ (by omega)]
    unfold escFn escCore
    split_ifs <;> first | rfl | (exfalso; omega)

/-- The lone-surrogate table agrees with its closed form. -/
theorem tableGet_LONE (b : Nat) :
    tableGet ESCAPE_LONE_SURROGATES b = escFn Escape.LO b := by
  by_cases h : b < 256
  · exact (by decide : ∀ b' < 256,
      tableGet ESCAPE_LONE_SURROGATES b' = escFn Escape.LO b') b h
  · have hlen : ESCAPE_LONE_SURROGATES.length = 256 := by decide
    rw [tableGet, List.getD_eq_default _ _ (by omega)]
    unfold escFn escCore
    split_ifs <;> first | rfl | (exfalso; omega)

theorem ESCAPE_ne_LONE : ESCAPE ≠ ESCAPE_LONE_SURROGATES := by decide

theorem escCore_ne_LO (b : Nat) : escCore b ≠ Escape.LO := by
  unfold escCore; split_ifs <;> decide

theorem escCore_NONE_of (b : Nat) (h1 : 0x20 ≤ b) (h2 : b ≠ 0x22) (h3 : b ≠ 0x5C) :
    escCore b = Escape.NONE := by
  unfold escCore
  rw [if_neg (by omega), if_neg (by omega), if_neg (by omega), if_neg (by omega),
    if_neg (by omega), if_neg (by omega), if_neg h2, if_neg h3]

theorem escCore_range (b : Nat) (h : escCore b ≠ Escape.NONE) :
    b < 0x20 ∨ b = 0x22 ∨ b = 0x5C := by
  by_cases h1 : b < 0x20
  · exact Or.inl h1
  · by_cases h2 : b = 0x22
    · exact Or.inr (Or.inl h2)
    · by_cases h3 : b = 0x5C
      · exact Or.inr (Or.inr h3)
      · exact absurd (escCore_NONE_of b (by omega) h2 h3) h

theorem escFn_ne_ef (lo : Escape) (b : Nat) (h : b ≠ 0xEF) :
    escFn lo b = escCore b := by
  unfold escFn; rw [if_neg h]

theorem escFn_cont (lo : Escape) (c : Nat) (h : contB c = true) :
    escFn lo c = Escape.NONE := by
  simp only [contB, decide_eq_true_eq] at h
  rw [escFn_ne_ef lo c (by omega)]
  exact escCore_NONE_of c (by omega) (by omega) (by omega)

/-! ### Predicate step lemmas -/

theorem utf8Valid_cons_ascii {b : Nat} (t : List Nat) (h : b ≤ 0x7F) :
    utf8Valid (b :: t) = utf8Valid t := by
  conv_lhs => rw [utf8Valid]
  rw [if_pos h]

/-- Shape analysis of a valid UTF-8 byte sequence: empty, or an ASCII byte,
or a 2-, 3- or 4-byte sequence (lead byte in the corresponding range,
continuation bytes in 0x80–0xBF), followed by a valid remainder. -/
theorem utf8Valid_cases {s : List Nat} (h : utf8Valid s = true) :
    s = [] ∨
    (∃ b t, s = b :: t ∧ b ≤ 0x7F ∧ utf8Valid t = true) ∨
    (∃ b c1 t, s = b :: c1 :: t ∧ 0xC2 ≤ b ∧ b ≤ 0xDF ∧ contB c1 = true ∧
      utf8Valid t = true) ∨
    (∃ b c1 c2 t, s = b :: c1 :: c2 :: t ∧ 0xE0 ≤ b ∧ b ≤ 0xEF ∧ contB c1 = true ∧
      contB c2 = true ∧ utf8Valid t = true) ∨
    (∃ b c1 c2 c3 t, s = b :: c1 :: c2 :: c3 :: t ∧ 0xF0 ≤ b ∧ b ≤ 0xF4 ∧
      contB c1 = true ∧ contB c2 = true ∧ contB c3 = true ∧ utf8Valid t = true) := by
  rcases s with _ | ⟨b, rest⟩
  · exact Or.inl rfl
  unfold utf8Valid at h
  split_ifs at h with h1 h2 h3 h4 h5 h6 h7 h8
  · exact Or.inr (Or.inl ⟨b, rest, rfl, h1, h⟩)
  · rcases rest with _ | ⟨c1, t⟩ <;>
      simp only [List.length_nil, List.length_cons, List.getD_cons_zero, List.getD_cons_succ,
        List.drop_succ_cons, List.drop_zero, Bool.and_eq_true, decide_eq_true_eq] at h
    · exact absurd h.1.1 (by omega)
    · exact Or.inr (Or.inr (Or.inl ⟨b, c1, t, rfl, h2.1, h2.2, h.1.2, h.2⟩))
  · rcases rest with _ | ⟨c1, _ | ⟨c2, t⟩⟩ <;>
      simp only [List.length_nil, List.length_cons, List.getD_cons_zero, List.getD_cons_succ,
        List.drop_succ_cons, List.drop_zero, Bool.and_eq_true, decide_eq_true_eq] at h
    · exact absurd h.1.1.1 (by omega)
    · exact absurd h.1.1.1 (by omega)
    · refine Or.inr (Or.inr (Or.inr (Or.inl ⟨b, c1, c2, t, rfl, by omega, by omega, ?_,
        h.1.2, h.2⟩)))
      simp only [contB, decide_eq_true_eq]; omega
  · rcases rest with _ | ⟨c1, _ | ⟨c2, t⟩⟩ <;>
      simp only [List.length_nil, List.length_cons, List.getD_cons_zero, List.getD_cons_succ,
        List.drop_succ_cons, List.drop_zero, Bool.and_eq_true, decide_eq_true_eq] at h
    · exact absurd h.1.1.1 (by omega)
    · exact absurd h.1.1.1 (by omega)
    · exact Or.inr (Or.inr (Or.inr (Or.inl ⟨b, c1, c2, t, rfl, by omega, by omega,
        h.1.1.2, h.1.2, h.2⟩)))
  · rcases rest with _ | ⟨c1, _ | ⟨c2, t⟩⟩ <;>
      simp only [List.length_nil, List.length_cons, List.getD_cons_zero, List.getD_cons_succ,
        List.drop_succ_cons, List.drop_zero, Bool.and_eq_true, decide_eq_true_eq] at h
    · exact absurd h.1.1.1 (by omega)
    · exact absurd h.1.1.1 (by omega)
    · refine Or.inr (Or.inr (Or.inr (Or.inl ⟨b, c1, c2, t, rfl, by omega, by omega, ?_,
        h.1.2, h.2⟩)))
      simp only [contB, decide_eq_true_eq]; omega
  · rcases rest with _ | ⟨c1, _ | ⟨c2, _ | ⟨c3, t⟩⟩⟩ <;>
      simp only [List.length_nil, List.length_cons, List.getD_cons_zero, List.getD_cons_succ,
        List.drop_succ_cons, List.drop_zero, Bool.and_eq_true, decide_eq_true_eq] at h
    · exact absurd h.1.1.1.1 (by omega)
    · exact absurd h.1.1.1.1 (by omega)
    · exact absurd h.1.1.1.1 (by omega)
    · refine Or.inr (Or.inr (Or.inr (Or.inr ⟨b, c1, c2, c3, t, rfl, by omega, by omega, ?_,
        h.1.1.2, h.1.2, h.2⟩)))
      simp only [contB, decide_eq_true_eq]; omega
  · rcases rest with _ | ⟨c1, _ | ⟨c2, _ | ⟨c3, t⟩⟩⟩ <;>
      simp only [List.length_nil, List.length_cons, List.getD_cons_zero, List.getD_cons_succ,
        List.drop_succ_cons, List.drop_zero, Bool.and_eq_true, decide_eq_true_eq] at h
    · exact absurd h.1.1.1.1 (by omega)
    · exact absurd h.1.1.1.1 (by omega)
    · exact absurd h.1.1.1.1 (by omega)
    · exact Or.inr (Or.inr (Or.inr (Or.inr ⟨b, c1, c2, c3, t, rfl, by omega, by omega,
        h.1.1.1.2, h.1.1.2, h.1.2, h.2⟩)))
  · rcases rest with _ | ⟨c1, _ | ⟨c2, _ | ⟨c3, t⟩⟩⟩ <;>
      simp only [List.length_nil, List.length_cons, List.getD_cons_zero, List.getD_cons_succ,
        List.drop_succ_cons, List.drop_zero, Bool.and_eq_true, decide_eq_true_eq] at h
    · exact absurd h.1.1.1.1 (by omega)
    · exact absurd h.1.1.1.1 (by omega)
    · exact absurd h.1.1.1.1 (by omega)
    · refine Or.inr (Or.inr (Or.inr (Or.inr ⟨b, c1, c2, c3, t, rfl, by omega, by omega, ?_,
        h.1.1.2, h.1.2, h.2⟩)))
      simp only [contB, decide_eq_true_eq]; omega

theorem markersOk_cons_ne {b : Nat} {rest : List Nat} (hb : b ≠ 0xEF) :
    markersOk (b :: rest) = markersOk rest := by
  rw [markersOk.eq_def]
  dsimp only
  rw [if_neg (fun hc => hb hc.1)]

theorem markersOk_ef_mismatch {c1 c2 : Nat} {rest : List Nat}
    (hnm : ¬(c1 = 0xBF ∧ c2 = 0xBD)) :
    markersOk (0xEF :: c1 :: c2 :: rest) = markersOk (c1 :: c2 :: rest) := by
  rw [markersOk.eq_def]
  dsimp only
  rw [if_neg]
  intro hc
  apply hnm
  have h2 := hc.2
  simp only [List.take_succ_cons, List.take_zero, List.cons.injEq, and_true] at h2
  exact h2

theorem markersOk_marker_elim {rest : List Nat}
    (h : markersOk (0xEF :: 0xBF :: 0xBD :: rest) = true) :
    ∃ d1 d2 d3 d4 t, rest = d1 :: d2 :: d3 :: d4 :: t ∧ isHexDigit d1 = true ∧
      isHexDigit d2 = true ∧ isHexDigit d3 = true ∧ isHexDigit d4 = true ∧
      markersOk t = true := by
  rw [markersOk.eq_def] at h
  dsimp only at h
  rw [if_pos ⟨rfl, by simp⟩] at h
  rcases rest with _ | ⟨d1, _ | ⟨d2, _ | ⟨d3, _ | ⟨d4, t⟩⟩⟩⟩ <;> simp at h
  obtain ⟨⟨⟨⟨h1, h2⟩, h3⟩, h4⟩, h5⟩ := h
  exact ⟨d1, d2, d3, d4, t, rfl, h1, h2, h3, h4, h5⟩

theorem noFFFD_cons {b : Nat} {rest : List Nat} (h : noFFFD (b :: rest) = true) :
    noFFFD rest = true := by
  rw [noFFFD.eq_def] at h
  dsimp only at h
  split_ifs at h
  exact h

theorem noFFFD_ef {rest : List Nat} (h : noFFFD (0xEF :: rest) = true) :
    rest.take 2 ≠ [0xBF, 0xBD] := by
  intro hc
  rw [noFFFD.eq_def] at h
  dsimp only at h
  rw [if_pos ⟨rfl, hc⟩] at h
  exact absurd h (by decide)

theorem isHexDigit_range {b : Nat} (h : isHexDigit b = true) :
    (0x30 ≤ b ∧ b ≤ 0x39) ∨ (0x61 ≤ b ∧ b ≤ 0x66) ∨ (0x41 ≤ b ∧ b ≤ 0x46) := by
  unfold isHexDigit hexVal at h
  split_ifs at h with a1 a2 a3
  · exact Or.inl a1
  · exact Or.inr (Or.inl a2)
  · exact Or.inr (Or.inr a3)
  · simp at h

theorem hex_land {b : Nat} (h : isHexDigit b = true) : b &&& 0x80 = 0 := by
  rcases isHexDigit_range h with ⟨l, r⟩ | ⟨l, r⟩ | ⟨l, r⟩ <;> interval_cases b <;> decide

theorem hexDigit_facts {b : Nat} (h : isHexDigit b = true) :
    b ≠ 0x22 ∧ b ≠ 0x5C ∧ b ≠ 0xEF ∧ b ≤ 0x7F := by
  rcases isHexDigit_range h with ⟨l, r⟩ | ⟨l, r⟩ | ⟨l, r⟩ <;>
    exact ⟨by omega, by omega, by omega, by omega⟩

/-! ### `scanBytes` unfolding helpers -/

theorem scan_nil (table : List Escape) (lone : Bool) :
    scanBytes table lone [] = some [] := by
  rw [scanBytes.eq_def]

theorem scan_cons_none {table : List Escape} {lone : Bool} {b : Nat} (t : List Nat)
    (h : tableGet table b = Escape.NONE) :
    scanBytes table lone (b :: t) = (scanBytes table lone t).map (fun o => b :: o) := by
  rw [scanBytes.eq_def]
  dsimp only
  rw [h, if_pos rfl]

theorem scan_cons_esc {table : List Escape} {lone : Bool} {b : Nat} {e : Escape}
    (t : List Nat) (h : tableGet table b = e) (hne : e ≠ Escape.NONE)
    (hlo : ¬(lone = true ∧ e = Escape.LO)) :
    scanBytes table lone (b :: t) =
      (scanBytes table lone t).map (fun o => write_char_escape e b ++ o) := by
  rw [scanBytes.eq_def]
  dsimp only
  rw [h, if_neg hne, if_neg hlo]

theorem scan_lo_one {table : List Escape} {b : Nat} (h : tableGet table b = Escape.LO) :
    scanBytes table true [b] = none := by
  rw [scanBytes.eq_def]
  dsimp only
  rw [h, if_neg (by decide), if_pos ⟨rfl, rfl⟩]

theorem scan_lo_two {table : List Escape} {b c1 : Nat}
    (h : tableGet table b = Escape.LO) :
    scanBytes table true [b, c1] = none := by
  rw [scanBytes.eq_def]
  dsimp only
  rw [h, if_neg (by decide), if_pos ⟨rfl, rfl⟩]

theorem scan_lo_mismatch {table : List Escape} {b c1 c2 : Nat} (t : List Nat)
    (h : tableGet table b = Escape.LO) (hnm : ¬(c1 = 0xBF ∧ c2 = 0xBD)) :
    scanBytes table true (b :: c1 :: c2 :: t) =
      (scanBytes table true t).map (fun o => b :: c1 :: c2 :: o) := by
  rw [scanBytes.eq_def]
  dsimp only
  rw [h, if_neg (by decide), if_pos ⟨rfl, rfl⟩, if_neg hnm]

theorem scan_lo_marker {table : List Escape} {b : Nat} (d1 d2 d3 d4 : Nat) (t : List Nat)
    (h : tableGet table b = Escape.LO) :
    scanBytes table true (b :: 0xBF :: 0xBD :: d1 :: d2 :: d3 :: d4 :: t) =
      (if [d1, d2, d3, d4] = [0x66, 0x66, 0x66, 0x64] then
        (scanBytes table true t).map (fun o => [0xEF, 0xBF, 0xBD] ++ o)
      else if d1 &&& 0x80 = 0 ∧ d2 &&& 0x80 = 0 ∧ d3 &&& 0x80 = 0 ∧ d4 &&& 0x80 = 0 then
        (scanBytes table true t).map (fun o => [0x5C, 0x75, d1, d2, d3, d4] ++ o)
      else none) := by
  rw [scanBytes.eq_def]
  dsimp only
  rw [h, if_neg (by decide), if_pos ⟨rfl, rfl⟩, if_pos ⟨rfl, rfl⟩]

theorem scan_lo_marker_short {table : List Escape} {b : Nat} (t : List Nat)
    (h : tableGet table b = Escape.LO) (hlen : t.length < 4) :
    scanBytes table true (b :: 0xBF :: 0xBD :: t) = none := by
  rw [scanBytes.eq_def]
  dsimp only
  rw [h, if_neg (by decide), if_pos ⟨rfl, rfl⟩]
  rcases t with _ | ⟨e1, _ | ⟨e2, _ | ⟨e3, _ | ⟨e4, t'⟩⟩⟩⟩
  · simp
  · simp
  · simp
  · simp
  · simp only [List.length_cons] at hlen
    omega

/-! ### Inert byte runs -/

theorem inert_nil (table : List Escape) (lone : Bool) : Inert table lone [] := by
  intro t
  simp only [List.nil_append]
  cases scanBytes table lone t <;> simp

theorem inert_append {table : List Escape} {lone : Bool} {u v : List Nat}
    (hu : Inert table lone u) (hv : Inert table lone v) :
    Inert table lone (u ++ v) := by
  intro t
  rw [List.append_assoc, hu, hv]
  cases scanBytes table lone t <;> simp

theorem inert_single {table : List Escape} {lone : Bool} {b : Nat}
    (h : tableGet table b = Escape.NONE) : Inert table lone [b] := by
  intro t
  rw [List.singleton_append, scan_cons_none t h]
  cases scanBytes table lone t <;> simp

theorem inert_lo_triple {table : List Escape} {b c1 c2 : Nat}
    (h : tableGet table b = Escape.LO) (hnm : ¬(c1 = 0xBF ∧ c2 = 0xBD)) :
    Inert table true [b, c1, c2] := by
  intro t
  have hsh : [b, c1, c2] ++ t = b :: c1 :: c2 :: t := rfl
  rw [hsh, scan_lo_mismatch t h hnm]
  cases scanBytes table true t <;> simp

/-! ### `write_str_loop` unfolding helpers -/

theorem loop_nil (bytes : List Nat) (table : List Escape) (lone : Bool)
    (index start : Nat) :
    write_str_loop bytes table lone [] index start =
      if start < bytes.length then some (bytes.drop start, [(start, bytes.length)])
      else some ([], []) := by
  rw [write_str_loop.eq_def]

theorem loop_cons_none {bytes : List Nat} {table : List Escape} {lone : Bool} {b : Nat}
    (rest : List Nat) (index start : Nat) (h : tableGet table b = Escape.NONE) :
    write_str_loop bytes table lone (b :: rest) index start =
      write_str_loop bytes table lone rest (index + 1) start := by
  rw [write_str_loop.eq_def]
  dsimp only
  rw [h, if_pos rfl]

theorem loop_cons_esc {bytes : List Nat} {table : List Escape} {lone : Bool} {b : Nat}
    {e : Escape} (rest : List Nat) (index start : Nat) (h : tableGet table b = e)
    (hne : e ≠ Escape.NONE) (hlo : ¬(lone = true ∧ e = Escape.LO)) :
    write_str_loop bytes table lone (b :: rest) index start =
      (write_str_loop bytes table lone rest (index + 1) (index + 1)).map
        (fun pr =>
          ((if start < index then (bytes.drop start).take (index - start) else []) ++
             write_char_escape e b ++ pr.1,
           (if start < index then [(start, index)] else []) ++ pr.2)) := by
  rw [write_str_loop.eq_def]
  dsimp only
  rw [h, if_neg hne, if_neg hlo]

theorem loop_lo_one {bytes : List Nat} {table : List Escape} {b : Nat}
    (index start : Nat) (h : tableGet table b = Escape.LO) :
    write_str_loop bytes table true [b] index start = none := by
  rw [write_str_loop.eq_def]
  dsimp only
  rw [h, if_neg (by decide), if_pos ⟨rfl, rfl⟩]

theorem loop_lo_two {bytes : List Nat} {table : List Escape} {b c1 : Nat}
    (index start : Nat) (h : tableGet table b = Escape.LO) :
    write_str_loop bytes table true [b, c1] index start = none := by
  rw [write_str_loop.eq_def]
  dsimp only
  rw [h, if_neg (by decide), if_pos ⟨rfl, rfl⟩]

theorem loop_lo_mismatch {bytes : List Nat} {table : List Escape} {b c1 c2 : Nat}
    (t : List Nat) (index start : Nat) (h : tableGet table b = Escape.LO)
    (hnm : ¬(c1 = 0xBF ∧ c2 = 0xBD)) :
    write_str_loop bytes table true (b :: c1 :: c2 :: t) index start =
      write_str_loop bytes table true t (index + 3) start := by
  rw [write_str_loop.eq_def]
  dsimp only
  rw [h, if_neg (by decide), if_pos ⟨rfl, rfl⟩, if_neg hnm]

theorem loop_lo_marker {bytes : List Nat} {table : List Escape} {b : Nat}
    (d1 d2 d3 d4 : Nat) (t : List Nat) (index start : Nat)
    (h : tableGet table b = Escape.LO) :
    write_str_loop bytes table true (b :: 0xBF :: 0xBD :: d1 :: d2 :: d3 :: d4 :: t)
        index start =
      (if [d1, d2, d3, d4] = [0x66, 0x66, 0x66, 0x64] then
        (write_str_loop bytes table true t (index + 7) (index + 7)).map
          (fun pr =>
            ((bytes.drop start).take (index - start) ++ [0xEF, 0xBF, 0xBD] ++ pr.1,
             (start, index) :: pr.2))
      else if d1 &&& 0x80 = 0 ∧ d2 &&& 0x80 = 0 ∧ d3 &&& 0x80 = 0 ∧ d4 &&& 0x80 = 0 then
        (write_str_loop bytes table true t (index + 7) (index + 7)).map
          (fun pr =>
            ((bytes.drop start).take (index - start) ++ [0x5C, 0x75, d1, d2, d3, d4] ++ pr.1,
             (start, index) :: pr.2))
      else none) := by
  rw [write_str_loop.eq_def]
  dsimp only
  rw [h, if_neg (by decide), if_pos ⟨rfl, rfl⟩, if_pos ⟨rfl, rfl⟩]

theorem loop_lo_marker_short {bytes : List Nat} {table : List Escape} {b : Nat}
    (t : List Nat) (index start : Nat) (h : tableGet table b = Escape.LO)
    (hlen : t.length < 4) :
    write_str_loop bytes table true (b :: 0xBF :: 0xBD :: t) index start = none := by
  rw [write_str_loop.eq_def]
  dsimp only
  rw [h, if_neg (by decide), if_pos ⟨rfl, rfl⟩]
  rcases t with _ | ⟨e1, _ | ⟨e2, _ | ⟨e3, _ | ⟨e4, t'⟩⟩⟩⟩
  · simp
  · simp
  · simp
  · simp
  · simp only [List.length_cons] at hlen
    omega

/-! ### Equivalence of the faithful loop with the byte-at-a-time scan -/

/-- Generalized loop invariant: if `rest` is the unscanned remainder
(`bytes.drop index`), and the pending verbatim run `seg`
(`bytes[start..index]`) is inert, then the loop's output equals the
byte-at-a-time scan of `seg ++ rest`. -/
theorem loop_fst_eq_scan (bytes : List Nat) (table : List Escape) (lone : Bool) :
    ∀ (n : Nat) (rest seg : List Nat) (index start : Nat), rest.length = n →
      bytes.drop index = rest → bytes.drop start = seg ++ rest →
      seg.length = index - start → start ≤ index → Inert table lone seg →
      (write_str_loop bytes table lone rest index start).map Prod.fst =
        scanBytes table lone (seg ++ rest) := by
  intro n
  induction n using Nat.strong_induction_on with
  | _ n ih =>
  intro rest seg index start hn hdropi hdrops hseglen hsi hinert
  rcases rest with _ | ⟨b, rest'⟩
  · rw [loop_nil, hinert [], scan_nil]
    have hseg : bytes.drop start = seg := by rw [hdrops, List.append_nil]
    by_cases hs : start < bytes.length
    · rw [if_pos hs]
      simp [hseg]
    · rw [if_neg hs]
      have h0 : bytes.drop start = [] := List.drop_eq_nil_of_le (by omega)
      have hseg0 : seg = [] := by rw [← hseg, h0]
      simp [hseg0]
  · have hlt : rest'.length < n := by rw [← hn]; simp
    have hdropi1 : bytes.drop (index + 1) = rest' := by
      rw [← List.tail_drop, hdropi]
      rfl
    by_cases hnone : tableGet table b = Escape.NONE
    · rw [loop_cons_none rest' index start hnone]
      have hdrops' : bytes.drop start = (seg ++ [b]) ++ rest' := by rw [hdrops]; simp
      have hlen' : (seg ++ [b]).length = (index + 1) - start := by
        simp only [List.length_append, List.length_cons, List.length_nil, hseglen]; omega
      have hrec := ih rest'.length hlt rest' (seg ++ [b]) (index + 1) start rfl hdropi1
        hdrops' hlen' (by omega) (inert_append hinert (inert_single hnone))
      rw [hrec]
      congr 1
      simp
    · by_cases hlo : lone = true ∧ tableGet table b = Escape.LO
      · obtain ⟨hl, hLO⟩ := hlo
        subst hl
        rcases rest' with _ | ⟨c1, rest''⟩
        · rw [loop_lo_one index start hLO, hinert [b], scan_lo_one hLO]
          simp
        rcases rest'' with _ | ⟨c2, rest2⟩
        · rw [loop_lo_two index start hLO, hinert [b, c1], scan_lo_two hLO]
          simp
        by_cases hnm : c1 = 0xBF ∧ c2 = 0xBD
        · obtain ⟨hbf, hbd⟩ := hnm
          subst hbf; subst hbd
          rcases rest2 with _ | ⟨d1, _ | ⟨d2, _ | ⟨d3, _ | ⟨d4, rest3⟩⟩⟩⟩
          · rw [loop_lo_marker_short _ index start hLO (by simp),
              hinert (b :: 0xBF :: 0xBD :: []), scan_lo_marker_short _ hLO (by simp)]
            simp
          · rw [loop_lo_marker_short _ index start hLO (by simp),
              hinert (b :: 0xBF :: 0xBD :: [d1]), scan_lo_marker_short _ hLO (by simp)]
            simp
          · rw [loop_lo_marker_short _ index start hLO (by simp),
              hinert (b :: 0xBF :: 0xBD :: [d1, d2]), scan_lo_marker_short _ hLO (by simp)]
            simp
          · rw [loop_lo_marker_short _ index start hLO (by simp),
              hinert (b :: 0xBF :: 0xBD :: [d1, d2, d3]),
              scan_lo_marker_short _ hLO (by simp)]
            simp
          · rw [loop_lo_marker d1 d2 d3 d4 rest3 index start hLO,
              hinert (b :: 0xBF :: 0xBD :: d1 :: d2 :: d3 :: d4 :: rest3),
              scan_lo_marker d1 d2 d3 d4 rest3 hLO]
            have hdropi7 : bytes.drop (index + 7) = rest3 := by
              have hdd : bytes.drop (index + 7) = (bytes.drop index).drop 7 := by
                rw [List.drop_drop]
              rw [hdd, hdropi]
              simp
            have hrec := ih rest3.length (by rw [← hn]; simp; omega) rest3 [] (index + 7)
              (index + 7) rfl hdropi7 (by rw [hdropi7]; simp) (by simp) (le_refl _)
              (inert_nil table true)
            simp only [List.nil_append] at hrec
            have hflush : (bytes.drop start).take (index - start) = seg := by
              rw [hdrops, ← hseglen, List.take_left]
            by_cases hf : [d1, d2, d3, d4] = [0x66, 0x66, 0x66, 0x64]
            · rw [if_pos hf, if_pos hf, hflush]
              cases hcase : write_str_loop bytes table true rest3 (index + 7) (index + 7) <;>
                cases hscan : scanBytes table true rest3 <;>
                  rw [hcase, hscan] at hrec <;> simp_all
            · rw [if_neg hf, if_neg hf]
              by_cases ha : d1 &&& 0x80 = 0 ∧ d2 &&& 0x80 = 0 ∧ d3 &&& 0x80 = 0 ∧
                  d4 &&& 0x80 = 0
              · rw [if_pos ha, if_pos ha, hflush]
                cases hcase : write_str_loop bytes table true rest3 (index + 7) (index + 7) <;>
                  cases hscan : scanBytes table true rest3 <;>
                    rw [hcase, hscan] at hrec <;> simp_all
              · rw [if_neg ha, if_neg ha]
                simp
        · rw [loop_lo_mismatch rest2 index start hLO hnm]
          have hdropi3 : bytes.drop (index + 3) = rest2 := by
            have hdd : bytes.drop (index + 3) = (bytes.drop index).drop 3 := by
              rw [List.drop_drop]
            rw [hdd, hdropi]
            simp
          have hdrops3 : bytes.drop start = (seg ++ [b, c1, c2]) ++ rest2 := by
            rw [hdrops]; simp
          have hlen3 : (seg ++ [b, c1, c2]).length = (index + 3) - start := by
            simp only [List.length_append, List.length_cons, List.length_nil, hseglen]; omega
          have hrec := ih rest2.length (by rw [← hn]; simp; omega) rest2 (seg ++ [b, c1, c2])
            (index + 3) start rfl hdropi3 hdrops3 hlen3 (by omega)
            (inert_append hinert (inert_lo_triple hLO hnm))
          rw [hrec]
          congr 1
          simp
      · rw [loop_cons_esc rest' index start rfl hnone hlo]
        have hrec := ih rest'.length hlt rest' [] (index + 1) (index + 1) rfl hdropi1
          (by rw [hdropi1]; simp) (by simp) (le_refl _) (inert_nil table lone)
        simp only [List.nil_append] at hrec
        have hpre : (if start < index then (bytes.drop start).take (index - start) else []) =
            seg := by
          by_cases hs : start < index
          · rw [if_pos hs, hdrops, ← hseglen, List.take_left]
          · rw [if_neg hs]
            have hz : seg.length = 0 := by omega
            exact (List.length_eq_zero.mp hz).symm
        rw [hpre, hinert (b :: rest'), scan_cons_esc rest' rfl hnone hlo]
        cases hcase : write_str_loop bytes table lone rest' (index + 1) (index + 1) <;>
          cases hscan : scanBytes table lone rest' <;>
            rw [hcase, hscan] at hrec <;> simp_all

/-- `write_str` equals the byte-at-a-time scan wrapped in quotes. -/
theorem write_str_eq_scan (s : List Nat) (table : List Escape) :
    write_str s table =
      (scanBytes table (decide (table = ESCAPE_LONE_SURROGATES)) s).map
        (fun o => [0x22] ++ o ++ [0x22]) := by
  unfold write_str
  have h := loop_fst_eq_scan s table (decide (table = ESCAPE_LONE_SURROGATES)) s.length s []
    0 0 rfl (by simp) (by simp) (by simp) (le_refl _) (inert_nil _ _)
  simp only [List.nil_append] at h
  rw [← h]
  cases write_str_loop s table (decide (table = ESCAPE_LONE_SURROGATES)) s 0 0 <;> simp

theorem write_str_ESCAPE_eq (s : List Nat) :
    write_str s ESCAPE = (scanBytes ESCAPE false s).map (fun o => [0x22] ++ o ++ [0x22]) := by
  rw [write_str_eq_scan]
  have hd : (decide (ESCAPE = ESCAPE_LONE_SURROGATES)) = false := by decide
  rw [hd]

theorem write_str_LONE_eq (s : List Nat) :
    write_str s ESCAPE_LONE_SURROGATES =
      (scanBytes ESCAPE_LONE_SURROGATES true s).map (fun o => [0x22] ++ o ++ [0x22]) := by
  rw [write_str_eq_scan]
  have hd : (decide (ESCAPE_LONE_SURROGATES = ESCAPE_LONE_SURROGATES)) = true := by
    simp
  rw [hd]

/-! ### Quote-safety machinery -/

/-- A JSON string body chunk is quote-safe: scanning it from a clear escape
flag meets no unescaped `"` and ends with the flag clear. -/
def QSafe (l : List Nat) : Prop :=
  uqCount l false = 0 ∧ flagAfter l false = false

theorem flagAfter_append : ∀ (a b : List Nat) (f : Bool),
    flagAfter (a ++ b) f = flagAfter b (flagAfter a f)
  | [], _, _ => rfl
  | x :: xs, b, f => by
    simp only [List.cons_append, flagAfter]
    exact flagAfter_append xs b _

theorem uqCount_append : ∀ (a b : List Nat) (f : Bool),
    uqCount (a ++ b) f = uqCount a f + uqCount b (flagAfter a f)
  | [], b, f => by simp [uqCount, flagAfter]
  | x :: xs, b, f => by
    cases f with
    | true =>
      have hl : uqCount (x :: (xs ++ b)) true = uqCount (xs ++ b) false := by
        simp [uqCount]
      have hr : uqCount (x :: xs) true = uqCount xs false := by simp [uqCount]
      have hfl : flagAfter (x :: xs) true = flagAfter xs false := by simp [flagAfter]
      rw [List.cons_append, hl, hr, hfl, uqCount_append xs b]
    | false =>
      by_cases h5 : x = 0x5C
      · subst h5
        have hl : uqCount (0x5C :: (xs ++ b)) false = uqCount (xs ++ b) true := by
          simp [uqCount]
        have hr : uqCount (0x5C :: xs) false = uqCount xs true := by simp [uqCount]
        have hfl : flagAfter (0x5C :: xs) false = flagAfter xs true := by simp [flagAfter]
        rw [List.cons_append, hl, hr, hfl, uqCount_append xs b]
      · by_cases h2 : x = 0x22
        · subst h2
          have hl : uqCount (0x22 :: (xs ++ b)) false = uqCount (xs ++ b) false + 1 := by
            simp [uqCount]
          have hr : uqCount (0x22 :: xs) false = uqCount xs false + 1 := by simp [uqCount]
          have hfl : flagAfter (0x22 :: xs) false = flagAfter xs false := by
            simp [flagAfter]
          rw [List.cons_append, hl, hr, hfl, uqCount_append xs b]
          omega
        · have hl : uqCount (x :: (xs ++ b)) false = uqCount (xs ++ b) false := by
            simp [uqCount, h5, h2]
          have hr : uqCount (x :: xs) false = uqCount xs false := by simp [uqCount, h5, h2]
          have hfl : flagAfter (x :: xs) false = flagAfter xs false := by
            simp [flagAfter, h5]
          rw [List.cons_append, hl, hr, hfl, uqCount_append xs b]

theorem qsafe_append {a b : List Nat} (ha : QSafe a) (hb : QSafe b) : QSafe (a ++ b) := by
  obtain ⟨a1, a2⟩ := ha
  obtain ⟨b1, b2⟩ := hb
  constructor
  · rw [uqCount_append, a1, a2, b1]
  · rw [flagAfter_append, a2, b2]

theorem qsafe_single {b : Nat} (h22 : b ≠ 0x22) (h5C : b ≠ 0x5C) : QSafe [b] := by
  constructor
  · simp [uqCount, h22, h5C]
  · simp [flagAfter, h5C]

theorem qsafe_esc (x : Nat) : QSafe [0x5C, x] := by
  constructor
  · simp [uqCount]
  · simp [flagAfter]

/-! ### Decoder helper lemmas -/

theorem hexVal_lowHexDigit {n : Nat} (h : n < 16) : hexVal (lowHexDigit n) = some n := by
  exact (by decide : ∀ m < 16, hexVal (lowHexDigit m) = some m) n h

theorem lowHexDigit_ne (n : Nat) : lowHexDigit n ≠ 0x22 ∧ lowHexDigit n ≠ 0x5C := by
  unfold lowHexDigit
  split_ifs <;> omega

theorem expectedEscapeBytes_generic {b : Nat} (h8 : b ≠ 0x08) (h9 : b ≠ 0x09)
    (hA : b ≠ 0x0A) (hC : b ≠ 0x0C) (hD : b ≠ 0x0D) (h22 : b ≠ 0x22) (h5C : b ≠ 0x5C) :
    expectedEscapeBytes b =
      [0x5C, 0x75, 0x30, 0x30, lowHexDigit (b / 16), lowHexDigit (b % 16)] := by
  unfold expectedEscapeBytes
  rw [if_neg h8, if_neg h9, if_neg hA, if_neg hC, if_neg hD, if_neg h22, if_neg h5C]

/-- Decoding a `\u00XX`-style escape with two symbolic low hex digits. -/
theorem unescape_u {d1 d2 v1 v2 : Nat} (t : List Nat) (h1 : hexVal d1 = some v1)
    (h2 : hexVal d2 = some v2) (hle : v1 * 16 + v2 ≤ 0x7F) :
    unescape (0x5C :: 0x75 :: 0x30 :: 0x30 :: d1 :: d2 :: t) =
      (unescape t).map (fun o => (v1 * 16 + v2) :: o) := by
  rw [unescape.eq_def]
  dsimp only
  rw [if_pos rfl, if_neg (by decide), if_neg (by decide), if_neg (by decide),
    if_neg (by decide), if_neg (by decide), if_neg (by decide), if_neg (by decide),
    if_neg (by decide), if_pos rfl]
  have h30 : hexVal 0x30 = some 0 := by decide
  rw [h30, h1, h2]
  dsimp only
  have hval : 0 * 4096 + 0 * 256 + v1 * 16 + v2 = v1 * 16 + v2 := by omega
  rw [hval]
  have henc : utf8Encode (v1 * 16 + v2) = [v1 * 16 + v2] := by
    unfold utf8Encode
    rw [if_pos hle]
  rw [henc]
  rfl

/-- Decoding a two-byte named escape. -/
theorem unescape_named {e v : Nat} (t : List Nat)
    (h : (e = 0x62 ∧ v = 0x08) ∨ (e = 0x74 ∧ v = 0x09) ∨ (e = 0x6E ∧ v = 0x0A) ∨
      (e = 0x66 ∧ v = 0x0C) ∨ (e = 0x72 ∧ v = 0x0D) ∨ (e = 0x22 ∧ v = 0x22) ∨
      (e = 0x5C ∧ v = 0x5C)) :
    unescape (0x5C :: e :: t) = (unescape t).map (fun o => v :: o) := by
  rw [unescape.eq_def]
  dsimp only
  rw [if_pos rfl]
  rcases h with ⟨he, hv⟩ | ⟨he, hv⟩ | ⟨he, hv⟩ | ⟨he, hv⟩ | ⟨he, hv⟩ | ⟨he, hv⟩ | ⟨he, hv⟩ <;>
    subst he <;> subst hv <;> simp

theorem unescape_verbatim {b : Nat} (t : List Nat) (h : b ≠ 0x5C) :
    unescape (b :: t) = (unescape t).map (fun o => b :: o) := by
  rw [unescape.eq_def]
  dsimp only
  rw [if_neg h]

theorem wce_expected {b : Nat} (h : escCore b ≠ Escape.NONE) :
    write_char_escape (escCore b) b = expectedEscapeBytes b := by
  rcases escCore_range b h with h1 | h1 | h1
  · exact (by decide :
      ∀ b' < 0x20, write_char_escape (escCore b') b' = expectedEscapeBytes b') b h1
  · subst h1; decide
  · subst h1; decide

theorem qsafe_expected (b : Nat) : QSafe (expectedEscapeBytes b) := by
  unfold expectedEscapeBytes
  split_ifs
  · exact ⟨by decide, by decide⟩
  · exact ⟨by decide, by decide⟩
  · exact ⟨by decide, by decide⟩
  · exact ⟨by decide, by decide⟩
  · exact ⟨by decide, by decide⟩
  · exact ⟨by decide, by decide⟩
  · exact ⟨by decide, by decide⟩
  · have e1 := lowHexDigit_ne (b / 16)
    have e2 := lowHexDigit_ne (b % 16)
    exact qsafe_append (qsafe_append (qsafe_append (qsafe_append (qsafe_esc 0x75)
      (qsafe_single (by decide) (by decide))) (qsafe_single (by decide) (by decide)))
      (qsafe_single e1.1 e1.2)) (qsafe_single e2.1 e2.2)

/-- Master lemma for the standard-mode scan: it is total, decoding its output
recovers the input, and the output is quote-safe. -/
theorem scanStd_master (s : List Nat) :
    ∃ o, scanBytes ESCAPE false s = some o ∧ unescape o = some s ∧ QSafe o := by
  induction s with
  | nil => exact ⟨[], scan_nil _ _, rfl, ⟨rfl, rfl⟩⟩
  | cons b rest ihr =>
    obtain ⟨o, ho, hdec, hq⟩ := ihr
    by_cases hnone : tableGet ESCAPE b = Escape.NONE
    · have hb5 : b ≠ 0x5C := by
        intro hc; subst hc
        rw [tableGet_ESCAPE] at hnone
        exact absurd hnone (by decide)
      have hb2 : b ≠ 0x22 := by
        intro hc; subst hc
        rw [tableGet_ESCAPE] at hnone
        exact absurd hnone (by decide)
      refine ⟨b :: o, ?_, ?_, ?_⟩
      · rw [scan_cons_none rest hnone, ho]
        rfl
      · rw [unescape_verbatim o hb5, hdec]
        rfl
      · exact qsafe_append (qsafe_single hb2 hb5) hq
    · have hEF : b ≠ 0xEF := by
        intro hc; subst hc
        rw [tableGet_ESCAPE] at hnone
        exact hnone (by decide)
      have hcore : tableGet ESCAPE b = escCore b := by
        rw [tableGet_ESCAPE, escFn_ne_ef _ _ hEF]
      have hcne : escCore b ≠ Escape.NONE := by rw [← hcore]; exact hnone
      refine ⟨expectedEscapeBytes b ++ o, ?_, ?_, ?_⟩
      · rw [scan_cons_esc rest hcore hcne (by simp), ho, wce_expected hcne]
        rfl
      · rcases escCore_range b hcne with hr | hr | hr
        · by_cases h8 : b = 0x08
          · subst h8
            rw [show expectedEscapeBytes 0x08 = [0x5C, 0x62] from rfl]
            rw [show ([0x5C, 0x62] ++ o : List Nat) = 0x5C :: 0x62 :: o from rfl]
            rw [unescape_named o (Or.inl ⟨rfl, rfl⟩), hdec]
            rfl
          · by_cases h9 : b = 0x09
            · subst h9
              rw [show expectedEscapeBytes 0x09 = [0x5C, 0x74] from rfl]
              rw [show ([0x5C, 0x74] ++ o : List Nat) = 0x5C :: 0x74 :: o from rfl]
              rw [unescape_named o (Or.inr (Or.inl ⟨rfl, rfl⟩)), hdec]
              rfl
            · by_cases hA : b = 0x0A
              · subst hA
                rw [show expectedEscapeBytes 0x0A = [0x5C, 0x6E] from rfl]
                rw [show ([0x5C, 0x6E] ++ o : List Nat) = 0x5C :: 0x6E :: o from rfl]
                rw [unescape_named o (Or.inr (Or.inr (Or.inl ⟨rfl, rfl⟩))), hdec]
                rfl
              · by_cases hC : b = 0x0C
                · subst hC
                  rw [show expectedEscapeBytes 0x0C = [0x5C, 0x66] from rfl]
                  rw [show ([0x5C, 0x66] ++ o : List Nat) = 0x5C :: 0x66 :: o from rfl]
                  rw [unescape_named o (Or.inr (Or.inr (Or.inr (Or.inl ⟨rfl, rfl⟩)))), hdec]
                  rfl
                · by_cases hD : b = 0x0D
                  · subst hD
                    rw [show expectedEscapeBytes 0x0D = [0x5C, 0x72] from rfl]
                    rw [show ([0x5C, 0x72] ++ o : List Nat) = 0x5C :: 0x72 :: o from rfl]
                    rw [unescape_named o
                      (Or.inr (Or.inr (Or.inr (Or.inr (Or.inl ⟨rfl, rfl⟩))))), hdec]
                    rfl
                  · rw [expectedEscapeBytes_generic h8 h9 hA hC hD (by omega) (by omega)]
                    rw [show ([0x5C, 0x75, 0x30, 0x30, lowHexDigit (b / 16),
                        lowHexDigit (b % 16)] ++ o : List Nat) =
                      0x5C :: 0x75 :: 0x30 :: 0x30 :: lowHexDigit (b / 16) ::
                        lowHexDigit (b % 16) :: o from rfl]
                    rw [unescape_u o (hexVal_lowHexDigit (by omega))
                      (hexVal_lowHexDigit (by omega)) (by omega)]
                    have hv : b / 16 * 16 + b % 16 = b := by omega
                    rw [hv, hdec]
                    rfl
        · subst hr
          rw [show expectedEscapeBytes 0x22 = [0x5C, 0x22] from rfl]
          rw [show ([0x5C, 0x22] ++ o : List Nat) = 0x5C :: 0x22 :: o from rfl]
          rw [unescape_named o
            (Or.inr (Or.inr (Or.inr (Or.inr (Or.inr (Or.inl ⟨rfl, rfl⟩)))))), hdec]
          rfl
        · subst hr
          rw [show expectedEscapeBytes 0x5C = [0x5C, 0x5C] from rfl]
          rw [show ([0x5C, 0x5C] ++ o : List Nat) = 0x5C :: 0x5C :: o from rfl]
          rw [unescape_named o
            (Or.inr (Or.inr (Or.inr (Or.inr (Or.inr (Or.inr ⟨rfl, rfl⟩)))))), hdec]
          rfl
      · exact qsafe_append (qsafe_expected b) hq

/-- Classification shortcuts for continuation bytes. -/
theorem cont_facts {c : Nat} (hc : contB c = true) :
    c ≠ 0xEF ∧ escCore c = Escape.NONE := by
  simp only [contB, decide_eq_true_eq] at hc
  exact ⟨by omega, escCore_NONE_of c (by omega) (by omega) (by omega)⟩

/-- Core compositional lemma: a valid UTF-8 prefix containing no U+FFFD is
scanned by the lone-surrogate mode exactly as by the standard mode, and
scanning continues independently after it. -/
theorem scanL_append : ∀ (n : Nat) (u : List Nat), u.length = n → utf8Valid u = true →
    noFFFD u = true → ∀ t,
      scanBytes ESCAPE_LONE_SURROGATES true (u ++ t) =
        (scanBytes ESCAPE false u).bind
          (fun a => (scanBytes ESCAPE_LONE_SURROGATES true t).map (fun c => a ++ c)) := by
  intro n
  induction n using Nat.strong_induction_on with
  | _ n ih =>
  intro u hn hv hf t
  rcases utf8Valid_cases hv with hu | ⟨b, r, rfl, hb, hvr⟩ |
    ⟨b, c1, r, rfl, hb1, hb2, hc1, hvr⟩ |
    ⟨b, c1, c2, r, rfl, hb1, hb2, hc1, hc2, hvr⟩ |
    ⟨b, c1, c2, c3, r, rfl, hb1, hb2, hc1, hc2, hc3, hvr⟩
  · subst hu
    rw [List.nil_append, scan_nil]
    cases scanBytes ESCAPE_LONE_SURROGATES true t <;> simp
  · -- ASCII byte
    have hner : b ≠ 0xEF := by omega
    have htL : tableGet ESCAPE_LONE_SURROGATES b = escCore b := by
      rw [tableGet_LONE, escFn_ne_ef _ _ hner]
    have htS : tableGet ESCAPE b = escCore b := by
      rw [tableGet_ESCAPE, escFn_ne_ef _ _ hner]
    have hfr : noFFFD r = true := noFFFD_cons hf
    have hrec := ih r.length (by rw [← hn]; simp only [List.length_cons]; omega) r rfl hvr hfr t
    by_cases hcn : escCore b = Escape.NONE
    · rw [show (b :: r) ++ t = b :: (r ++ t) from rfl,
        scan_cons_none _ (htL.trans hcn), scan_cons_none _ (htS.trans hcn), hrec]
      cases hsr : scanBytes ESCAPE false r <;>
        cases hst : scanBytes ESCAPE_LONE_SURROGATES true t <;> simp
    · have hlo : escCore b ≠ Escape.LO := escCore_ne_LO b
      rw [show (b :: r) ++ t = b :: (r ++ t) from rfl,
        scan_cons_esc _ htL hcn (fun hc => hlo hc.2),
        scan_cons_esc _ htS hcn (by simp), hrec]
      cases hsr : scanBytes ESCAPE false r <;>
        cases hst : scanBytes ESCAPE_LONE_SURROGATES true t <;> simp
  · -- 2-byte character
    obtain ⟨hc1ne, hc1N⟩ := cont_facts hc1
    have hbne : b ≠ 0xEF := by omega
    have hbN : escCore b = Escape.NONE := escCore_NONE_of b (by omega) (by omega) (by omega)
    have htLb : tableGet ESCAPE_LONE_SURROGATES b = Escape.NONE := by
      rw [tableGet_LONE, escFn_ne_ef _ _ hbne, hbN]
    have htSb : tableGet ESCAPE b = Escape.NONE := by
      rw [tableGet_ESCAPE, escFn_ne_ef _ _ hbne, hbN]
    have htLc : tableGet ESCAPE_LONE_SURROGATES c1 = Escape.NONE := by
      rw [tableGet_LONE, escFn_ne_ef _ _ hc1ne, hc1N]
    have htSc : tableGet ESCAPE c1 = Escape.NONE := by
      rw [tableGet_ESCAPE, escFn_ne_ef _ _ hc1ne, hc1N]
    have hfr : noFFFD r = true := noFFFD_cons (noFFFD_cons hf)
    have hrec := ih r.length (by rw [← hn]; simp only [List.length_cons]; omega) r rfl hvr hfr t
    rw [show (b :: c1 :: r) ++ t = b :: c1 :: (r ++ t) from rfl,
      scan_cons_none _ htLb, scan_cons_none _ htLc,
      scan_cons_none _ htSb, scan_cons_none _ htSc, hrec]
    cases hsr : scanBytes ESCAPE false r <;>
      cases hst : scanBytes ESCAPE_LONE_SURROGATES true t <;> simp
  · -- 3-byte character
    obtain ⟨hc1ne, hc1N⟩ := cont_facts hc1
    obtain ⟨hc2ne, hc2N⟩ := cont_facts hc2
    have htLc1 : tableGet ESCAPE_LONE_SURROGATES c1 = Escape.NONE := by
      rw [tableGet_LONE, escFn_ne_ef _ _ hc1ne, hc1N]
    have htSc1 : tableGet ESCAPE c1 = Escape.NONE := by
      rw [tableGet_ESCAPE, escFn_ne_ef _ _ hc1ne, hc1N]
    have htLc2 : tableGet ESCAPE_LONE_SURROGATES c2 = Escape.NONE := by
      rw [tableGet_LONE, escFn_ne_ef _ _ hc2ne, hc2N]
    have htSc2 : tableGet ESCAPE c2 = Escape.NONE := by
      rw [tableGet_ESCAPE, escFn_ne_ef _ _ hc2ne, hc2N]
    have hfr : noFFFD r = true := noFFFD_cons (noFFFD_cons (noFFFD_cons hf))
    have hrec := ih r.length (by rw [← hn]; simp only [List.length_cons]; omega) r rfl hvr hfr t
    have htSb : tableGet ESCAPE b = Escape.NONE := by
      rw [tableGet_ESCAPE]
      by_cases hbe : b = 0xEF
      · subst hbe; decide
      · rw [escFn_ne_ef _ _ hbe]
        exact escCore_NONE_of b (by omega) (by omega) (by omega)
    by_cases hbe : b = 0xEF
    · subst hbe
      have hnm : ¬(c1 = 0xBF ∧ c2 = 0xBD) := by
        have := noFFFD_ef hf
        intro hc
        exact this (by simp [hc.1, hc.2])
      have htLb : tableGet ESCAPE_LONE_SURROGATES 0xEF = Escape.LO := by
        rw [tableGet_LONE]; decide
      rw [show (0xEF :: c1 :: c2 :: r) ++ t = 0xEF :: c1 :: c2 :: (r ++ t) from rfl,
        scan_lo_mismatch _ htLb hnm,
        scan_cons_none _ htSb, scan_cons_none _ htSc1, scan_cons_none _ htSc2, hrec]
      cases hsr : scanBytes ESCAPE false r <;>
        cases hst : scanBytes ESCAPE_LONE_SURROGATES true t <;> simp
    · have hbN : escCore b = Escape.NONE :=
        escCore_NONE_of b (by omega) (by omega) (by omega)
      have htLb : tableGet ESCAPE_LONE_SURROGATES b = Escape.NONE := by
        rw [tableGet_LONE, escFn_ne_ef _ _ hbe, hbN]
      have hfr3 : noFFFD r = true := hfr
      rw [show (b :: c1 :: c2 :: r) ++ t = b :: c1 :: c2 :: (r ++ t) from rfl,
        scan_cons_none _ htLb, scan_cons_none _ htLc1, scan_cons_none _ htLc2,
        scan_cons_none _ htSb, scan_cons_none _ htSc1, scan_cons_none _ htSc2, hrec]
      cases hsr : scanBytes ESCAPE false r <;>
        cases hst : scanBytes ESCAPE_LONE_SURROGATES true t <;> simp
  · -- 4-byte character
    obtain ⟨hc1ne, hc1N⟩ := cont_facts hc1
    obtain ⟨hc2ne, hc2N⟩ := cont_facts hc2
    obtain ⟨hc3ne, hc3N⟩ := cont_facts hc3
    have hbne : b ≠ 0xEF := by omega
    have hbN : escCore b = Escape.NONE := escCore_NONE_of b (by omega) (by omega) (by omega)
    have htLb : tableGet ESCAPE_LONE_SURROGATES b = Escape.NONE := by
      rw [tableGet_LONE, escFn_ne_ef _ _ hbne, hbN]
    have htSb : tableGet ESCAPE b = Escape.NONE := by
      rw [tableGet_ESCAPE, escFn_ne_ef _ _ hbne, hbN]
    have htLc1 : tableGet ESCAPE_LONE_SURROGATES c1 = Escape.NONE := by
      rw [tableGet_LONE, escFn_ne_ef _ _ hc1ne, hc1N]
    have htSc1 : tableGet ESCAPE c1 = Escape.NONE := by
      rw [tableGet_ESCAPE, escFn_ne_ef _ _ hc1ne, hc1N]
    have htLc2 : tableGet ESCAPE_LONE_SURROGATES c2 = Escape.NONE := by
      rw [tableGet_LONE, escFn_ne_ef _ _ hc2ne, hc2N]
    have htSc2 : tableGet ESCAPE c2 = Escape.NONE := by
      rw [tableGet_ESCAPE, escFn_ne_ef _ _ hc2ne, hc2N]
    have htLc3 : tableGet ESCAPE_LONE_SURROGATES c3 = Escape.NONE := by
      rw [tableGet_LONE, escFn_ne_ef _ _ hc3ne, hc3N]
    have htSc3 : tableGet ESCAPE c3 = Escape.NONE := by
      rw [tableGet_ESCAPE, escFn_ne_ef _ _ hc3ne, hc3N]
    have hfr : noFFFD r = true := noFFFD_cons (noFFFD_cons (noFFFD_cons (noFFFD_cons hf)))
    have hrec := ih r.length (by rw [← hn]; simp only [List.length_cons]; omega) r rfl hvr hfr t
    rw [show (b :: c1 :: c2 :: c3 :: r) ++ t = b :: c1 :: c2 :: c3 :: (r ++ t) from rfl,
      scan_cons_none _ htLb, scan_cons_none _ htLc1, scan_cons_none _ htLc2,
      scan_cons_none _ htLc3,
      scan_cons_none _ htSb, scan_cons_none _ htSc1, scan_cons_none _ htSc2,
      scan_cons_none _ htSc3, hrec]
    cases hsr : scanBytes ESCAPE false r <;>
      cases hst : scanBytes ESCAPE_LONE_SURROGATES true t <;> simp

/-- Resolving one well-formed 7-byte marker: exactly the 7 bytes are consumed,
the predicted bytes are emitted, and the scan continues independently after. -/
theorem scanL_marker {d1 d2 d3 d4 : Nat} (t : List Nat) (h1 : isHexDigit d1 = true)
    (h2 : isHexDigit d2 = true) (h3 : isHexDigit d3 = true) (h4 : isHexDigit d4 = true) :
    scanBytes ESCAPE_LONE_SURROGATES true ([0xEF, 0xBF, 0xBD, d1, d2, d3, d4] ++ t) =
      (scanBytes ESCAPE_LONE_SURROGATES true t).map
        (fun c => markerOut d1 d2 d3 d4 ++ c) := by
  have htLb : tableGet ESCAPE_LONE_SURROGATES 0xEF = Escape.LO := by
    rw [tableGet_LONE]; decide
  rw [show ([0xEF, 0xBF, 0xBD, d1, d2, d3, d4] ++ t : List Nat) =
    0xEF :: 0xBF :: 0xBD :: d1 :: d2 :: d3 :: d4 :: t from rfl]
  rw [scan_lo_marker d1 d2 d3 d4 t htLb]
  unfold markerOut
  by_cases hf : [d1, d2, d3, d4] = [0x66, 0x66, 0x66, 0x64]
  · rw [if_pos hf, if_pos hf]
  · rw [if_neg hf, if_neg hf,
      if_pos ⟨hex_land h1, hex_land h2, hex_land h3, hex_land h4⟩]

theorem qsafe_markerOut {d1 d2 d3 d4 : Nat} (h1 : isHexDigit d1 = true)
    (h2 : isHexDigit d2 = true) (h3 : isHexDigit d3 = true) (h4 : isHexDigit d4 = true) :
    QSafe (markerOut d1 d2 d3 d4) := by
  unfold markerOut
  split_ifs
  · exact ⟨by decide, by decide⟩
  · obtain ⟨e1, f1, _, _⟩ := hexDigit_facts h1
    obtain ⟨e2, f2, _, _⟩ := hexDigit_facts h2
    obtain ⟨e3, f3, _, _⟩ := hexDigit_facts h3
    obtain ⟨e4, f4, _, _⟩ := hexDigit_facts h4
    exact qsafe_append (qsafe_append (qsafe_append (qsafe_append (qsafe_esc 0x75)
      (qsafe_single e1 f1)) (qsafe_single e2 f2)) (qsafe_single e3 f3))
      (qsafe_single e4 f4)

/-- Master lemma for the lone-surrogate mode under the documented input
contract: the scan is total and its output is quote-safe. -/
theorem scanL_master : ∀ (n : Nat) (s : List Nat), s.length = n → utf8Valid s = true →
    markersOk s = true →
    ∃ o, scanBytes ESCAPE_LONE_SURROGATES true s = some o ∧ QSafe o := by
  intro n
  induction n using Nat.strong_induction_on with
  | _ n ih =>
  intro s hn hv hm
  rcases utf8Valid_cases hv with hu | ⟨b, r, rfl, hb, hvr⟩ |
    ⟨b, c1, r, rfl, hb1, hb2, hc1, hvr⟩ |
    ⟨b, c1, c2, r, rfl, hb1, hb2, hc1, hc2, hvr⟩ |
    ⟨b, c1, c2, c3, r, rfl, hb1, hb2, hc1, hc2, hc3, hvr⟩
  · subst hu
    exact ⟨[], scan_nil _ _, rfl, rfl⟩
  · -- ASCII byte
    have hner : b ≠ 0xEF := by omega
    have htL : tableGet ESCAPE_LONE_SURROGATES b = escCore b := by
      rw [tableGet_LONE, escFn_ne_ef _ _ hner]
    rw [markersOk_cons_ne hner] at hm
    obtain ⟨o, ho, hq⟩ :=
      ih r.length (by rw [← hn]; simp only [List.length_cons]; omega) r rfl hvr hm
    by_cases hcn : escCore b = Escape.NONE
    · have hb22 : b ≠ 0x22 := by
        intro hc; subst hc; exact absurd hcn (by decide)
      have hb5C : b ≠ 0x5C := by
        intro hc; subst hc; exact absurd hcn (by decide)
      refine ⟨b :: o, ?_, qsafe_append (qsafe_single hb22 hb5C) hq⟩
      rw [scan_cons_none _ (htL.trans hcn), ho]
      rfl
    · refine ⟨expectedEscapeBytes b ++ o, ?_, qsafe_append (qsafe_expected b) hq⟩
      rw [scan_cons_esc _ htL hcn (fun hc => escCore_ne_LO b hc.2), ho,
        wce_expected hcn]
      rfl
  · -- 2-byte character
    obtain ⟨hc1ne, hc1N⟩ := cont_facts hc1
    have hbne : b ≠ 0xEF := by omega
    have htLb : tableGet ESCAPE_LONE_SURROGATES b = Escape.NONE := by
      rw [tableGet_LONE, escFn_ne_ef _ _ hbne]
      exact escCore_NONE_of b (by omega) (by omega) (by omega)
    have htLc : tableGet ESCAPE_LONE_SURROGATES c1 = Escape.NONE := by
      rw [tableGet_LONE, escFn_ne_ef _ _ hc1ne, hc1N]
    rw [markersOk_cons_ne hbne, markersOk_cons_ne hc1ne] at hm
    obtain ⟨o, ho, hq⟩ :=
      ih r.length (by rw [← hn]; simp only [List.length_cons]; omega) r rfl hvr hm
    have hcont : 0x80 ≤ c1 ∧ c1 ≤ 0xBF := by
      simpa [contB] using hc1
    refine ⟨b :: c1 :: o, ?_,
      qsafe_append (qsafe_single (by omega) (by omega))
        (qsafe_append (qsafe_single (by omega) (by omega)) hq)⟩
    rw [scan_cons_none _ htLb, scan_cons_none _ htLc, ho]
    rfl
  · -- 3-byte character
    obtain ⟨hc1ne, hc1N⟩ := cont_facts hc1
    obtain ⟨hc2ne, hc2N⟩ := cont_facts hc2
    have hcont1 : 0x80 ≤ c1 ∧ c1 ≤ 0xBF := by simpa [contB] using hc1
    have hcont2 : 0x80 ≤ c2 ∧ c2 ≤ 0xBF := by simpa [contB] using hc2
    have htLc1 : tableGet ESCAPE_LONE_SURROGATES c1 = Escape.NONE := by
      rw [tableGet_LONE, escFn_ne_ef _ _ hc1ne, hc1N]
    have htLc2 : tableGet ESCAPE_LONE_SURROGATES c2 = Escape.NONE := by
      rw [tableGet_LONE, escFn_ne_ef _ _ hc2ne, hc2N]
    by_cases hbe : b = 0xEF
    · subst hbe
      have htLb : tableGet ESCAPE_LONE_SURROGATES 0xEF = Escape.LO := by
        rw [tableGet_LONE]; decide
      by_cases hnm : c1 = 0xBF ∧ c2 = 0xBD
      · obtain ⟨hbf, hbd⟩ := hnm
        subst hbf; subst hbd
        obtain ⟨d1, d2, d3, d4, t, rfl, hx1, hx2, hx3, hx4, hmt⟩ :=
          markersOk_marker_elim hm
        have hvt : utf8Valid t = true := by
          rw [utf8Valid_cons_ascii _ (hexDigit_facts hx1).2.2.2,
            utf8Valid_cons_ascii _ (hexDigit_facts hx2).2.2.2,
            utf8Valid_cons_ascii _ (hexDigit_facts hx3).2.2.2,
            utf8Valid_cons_ascii _ (hexDigit_facts hx4).2.2.2] at hvr
          exact hvr
        obtain ⟨o, ho, hq⟩ :=
          ih t.length (by rw [← hn]; simp only [List.length_cons]; omega) t rfl hvt hmt
        refine ⟨markerOut d1 d2 d3 d4 ++ o, ?_,
          qsafe_append (qsafe_markerOut hx1 hx2 hx3 hx4) hq⟩
        rw [show (0xEF :: 0xBF :: 0xBD :: d1 :: d2 :: d3 :: d4 :: t : List Nat) =
          [0xEF, 0xBF, 0xBD, d1, d2, d3, d4] ++ t from rfl]
        rw [scanL_marker t hx1 hx2 hx3 hx4, ho]
        rfl
      · rw [markersOk_ef_mismatch hnm, markersOk_cons_ne hc1ne,
          markersOk_cons_ne hc2ne] at hm
        obtain ⟨o, ho, hq⟩ :=
          ih r.length (by rw [← hn]; simp only [List.length_cons]; omega) r rfl hvr hm
        refine ⟨0xEF :: c1 :: c2 :: o, ?_,
          qsafe_append (qsafe_single (by omega) (by omega))
            (qsafe_append (qsafe_single (by omega) (by omega))
              (qsafe_append (qsafe_single (by omega) (by omega)) hq))⟩
        rw [scan_lo_mismatch _ htLb hnm, ho]
        rfl
    · have htLb : tableGet ESCAPE_LONE_SURROGATES b = Escape.NONE := by
        rw [tableGet_LONE, escFn_ne_ef _ _ hbe]
        exact escCore_NONE_of b (by omega) (by omega) (by omega)
      rw [markersOk_cons_ne hbe, markersOk_cons_ne hc1ne, markersOk_cons_ne hc2ne] at hm
      obtain ⟨o, ho, hq⟩ :=
        ih r.length (by rw [← hn]; simp only [List.length_cons]; omega) r rfl hvr hm
      refine ⟨b :: c1 :: c2 :: o, ?_,
        qsafe_append (qsafe_single (by omega) (by omega))
          (qsafe_append (qsafe_single (by omega) (by omega))
            (qsafe_append (qsafe_single (by omega) (by omega)) hq))⟩
      rw [scan_cons_none _ htLb, scan_cons_none _ htLc1, scan_cons_none _ htLc2, ho]
      rfl
  · -- 4-byte character
    obtain ⟨hc1ne, hc1N⟩ := cont_facts hc1
    obtain ⟨hc2ne, hc2N⟩ := cont_facts hc2
    obtain ⟨hc3ne, hc3N⟩ := cont_facts hc3
    have hcont1 : 0x80 ≤ c1 ∧ c1 ≤ 0xBF := by simpa [contB] using hc1
    have hcont2 : 0x80 ≤ c2 ∧ c2 ≤ 0xBF := by simpa [contB] using hc2
    have hcont3 : 0x80 ≤ c3 ∧ c3 ≤ 0xBF := by simpa [contB] using hc3
    have hbne : b ≠ 0xEF := by omega
    have htLb : tableGet ESCAPE_LONE_SURROGATES b = Escape.NONE := by
      rw [tableGet_LONE, escFn_ne_ef _ _ hbne]
      exact escCore_NONE_of b (by omega) (by omega) (by omega)
    have htLc1 : tableGet ESCAPE_LONE_SURROGATES c1 = Escape.NONE := by
      rw [tableGet_LONE, escFn_ne_ef _ _ hc1ne, hc1N]
    have htLc2 : tableGet ESCAPE_LONE_SURROGATES c2 = Escape.NONE := by
      rw [tableGet_LONE, escFn_ne_ef _ _ hc2ne, hc2N]
    have htLc3 : tableGet ESCAPE_LONE_SURROGATES c3 = Escape.NONE := by
      rw [tableGet_LONE, escFn_ne_ef _ _ hc3ne, hc3N]
    rw [markersOk_cons_ne hbne, markersOk_cons_ne hc1ne, markersOk_cons_ne hc2ne,
      markersOk_cons_ne hc3ne] at hm
    obtain ⟨o, ho, hq⟩ :=
      ih r.length (by rw [← hn]; simp only [List.length_cons]; omega) r rfl hvr hm
    refine ⟨b :: c1 :: c2 :: c3 :: o, ?_,
      qsafe_append (qsafe_single (by omega) (by omega))
        (qsafe_append (qsafe_single (by omega) (by omega))
          (qsafe_append (qsafe_single (by omega) (by omega))
            (qsafe_append (qsafe_single (by omega) (by omega)) hq)))⟩
    rw [scan_cons_none _ htLb, scan_cons_none _ htLc1, scan_cons_none _ htLc2,
      scan_cons_none _ htLc3, ho]
    rfl

/-- Safety lemma for the scanning loop: under valid UTF-8 input (plus the
marker contract in lone-surrogate mode) the loop never panics, and every
`(start, end)` range it bulk-appends starts and ends on a UTF-8 character
boundary of the input (both suffixes are themselves valid UTF-8). -/
theorem loop_ranges : ∀ (n : Nat) (bytes : List Nat) (table : List Escape) (lone : Bool)
    (rest : List Nat) (index start : Nat), rest.length = n →
    (∀ b, tableGet table b = escFn (if lone then Escape.LO else Escape.NONE) b) →
    bytes.drop index = rest → utf8Valid rest = true →
    utf8Valid (bytes.drop start) = true →
    (lone = true → markersOk rest = true) →
    ∃ pr, write_str_loop bytes table lone rest index start = some pr ∧
      ∀ p ∈ pr.2, utf8Valid (bytes.drop p.1) = true ∧
        utf8Valid (bytes.drop p.2) = true := by
  intro n
  induction n using Nat.strong_induction_on with
  | _ n ih =>
  intro bytes table lone rest index start hn htg hdropi hvrest hvs hm
  rcases utf8Valid_cases hvrest with hu | ⟨b, r, hre, hb, hvr⟩ |
    ⟨b, c1, r, hre, hb1, hb2, hc1, hvr⟩ |
    ⟨b, c1, c2, r, hre, hb1, hb2, hc1, hc2, hvr⟩ |
    ⟨b, c1, c2, c3, r, hre, hb1, hb2, hc1, hc2, hc3, hvr⟩
  · subst hu
    rw [loop_nil]
    by_cases hs : start < bytes.length
    · rw [if_pos hs]
      refine ⟨_, rfl, ?_⟩
      intro p hp
      simp only [List.mem_singleton] at hp
      subst hp
      exact ⟨hvs, by rw [List.drop_length, utf8Valid]⟩
    · rw [if_neg hs]
      exact ⟨_, rfl, by intro p hp; simp at hp⟩
  · -- ASCII byte
    subst hre
    have hner : b ≠ 0xEF := by omega
    have hdropi1 : bytes.drop (index + 1) = r := by
      rw [← List.tail_drop, hdropi]
      rfl
    have hmr : lone = true → markersOk r = true := by
      intro hl
      have := hm hl
      rwa [markersOk_cons_ne hner] at this
    by_cases hcn : escCore b = Escape.NONE
    · have htb : tableGet table b = Escape.NONE := by
        rw [htg, escFn_ne_ef _ _ hner, hcn]
      rw [loop_cons_none r index start htb]
      exact ih r.length (by rw [← hn]; simp only [List.length_cons]; omega) bytes table
        lone r (index + 1) start rfl htg hdropi1 hvr hvs hmr
    · have htb : tableGet table b = escCore b := by
        rw [htg, escFn_ne_ef _ _ hner]
      have hvs1 : utf8Valid (bytes.drop (index + 1)) = true := by rw [hdropi1]; exact hvr
      obtain ⟨pr, hpr, hranges⟩ :=
        ih r.length (by rw [← hn]; simp only [List.length_cons]; omega) bytes table
          lone r (index + 1) (index + 1) rfl htg hdropi1 hvr hvs1 hmr
      rw [loop_cons_esc r index start htb (htb ▸ (htb ▸ hcn : tableGet table b ≠ Escape.NONE))
        (fun hc => escCore_ne_LO b (htb ▸ hc.2)), hpr]
      refine ⟨_, rfl, ?_⟩
      intro p hp
      rw [List.mem_append] at hp
      rcases hp with hp | hp
      · by_cases hs : start < index
        · rw [if_pos hs] at hp
          simp only [List.mem_singleton] at hp
          subst hp
          exact ⟨hvs, by rw [hdropi]; exact hvrest⟩
        · rw [if_neg hs] at hp
          simp at hp
      · exact hranges p hp
  · -- 2-byte character
    subst hre
    obtain ⟨hc1ne, hc1N⟩ := cont_facts hc1
    have hbne : b ≠ 0xEF := by omega
    have htb : tableGet table b = Escape.NONE := by
      rw [htg, escFn_ne_ef _ _ hbne]
      exact escCore_NONE_of b (by omega) (by omega) (by omega)
    have htc : tableGet table c1 = Escape.NONE := by
      rw [htg, escFn_ne_ef _ _ hc1ne, hc1N]
    have hdropi2 : bytes.drop (index + 2) = r := by
      have hdd : bytes.drop (index + 2) = (bytes.drop index).drop 2 := by
        rw [List.drop_drop]
      rw [hdd, hdropi]
      rfl
    have hmr : lone = true → markersOk r = true := by
      intro hl
      have := hm hl
      rwa [markersOk_cons_ne hbne, markersOk_cons_ne hc1ne] at this
    rw [loop_cons_none _ index start htb, loop_cons_none _ (index + 1) start htc]
    have h12 : index + 1 + 1 = index + 2 := by omega
    rw [h12]
    exact ih r.length (by rw [← hn]; simp only [List.length_cons]; omega) bytes table
      lone r (index + 2) start rfl htg hdropi2 hvr hvs hmr
  · -- 3-byte character
    subst hre
    obtain ⟨hc1ne, hc1N⟩ := cont_facts hc1
    obtain ⟨hc2ne, hc2N⟩ := cont_facts hc2
    have htc1 : tableGet table c1 = Escape.NONE := by
      rw [htg, escFn_ne_ef _ _ hc1ne, hc1N]
    have htc2 : tableGet table c2 = Escape.NONE := by
      rw [htg, escFn_ne_ef _ _ hc2ne, hc2N]
    have hdropi3 : bytes.drop (index + 3) = r := by
      have hdd : bytes.drop (index + 3) = (bytes.drop index).drop 3 := by
        rw [List.drop_drop]
      rw [hdd, hdropi]
      rfl
    by_cases hEFlone : lone = true ∧ b = 0xEF
    · obtain ⟨hl, hbe⟩ := hEFlone
      subst hl
      subst hbe
      have htb : tableGet table 0xEF = Escape.LO := by
        rw [htg]; decide
      by_cases hnm : c1 = 0xBF ∧ c2 = 0xBD
      · obtain ⟨hbf, hbd⟩ := hnm
        subst hbf; subst hbd
        obtain ⟨d1, d2, d3, d4, t, hrt, hx1, hx2, hx3, hx4, hmt⟩ :=
          markersOk_marker_elim (hm rfl)
        subst hrt
        have hvt : utf8Valid t = true := by
          rw [utf8Valid_cons_ascii _ (hexDigit_facts hx1).2.2.2,
            utf8Valid_cons_ascii _ (hexDigit_facts hx2).2.2.2,
            utf8Valid_cons_ascii _ (hexDigit_facts hx3).2.2.2,
            utf8Valid_cons_ascii _ (hexDigit_facts hx4).2.2.2] at hvr
          exact hvr
        have hdropi7 : bytes.drop (index + 7) = t := by
          have hdd : bytes.drop (index + 7) = (bytes.drop index).drop 7 := by
            rw [List.drop_drop]
          rw [hdd, hdropi]
          rfl
        have hvs7 : utf8Valid (bytes.drop (index + 7)) = true := by
          rw [hdropi7]; exact hvt
        obtain ⟨pr, hpr, hranges⟩ :=
          ih t.length (by rw [← hn]; simp only [List.length_cons]; omega) bytes table
            true t (index + 7) (index + 7) rfl htg hdropi7 hvt hvs7 (fun _ => hmt)
        rw [loop_lo_marker d1 d2 d3 d4 t index start htb]
        by_cases hf : [d1, d2, d3, d4] = [0x66, 0x66, 0x66, 0x64]
        · rw [if_pos hf, hpr]
          refine ⟨_, rfl, ?_⟩
          intro p hp
          simp only [List.mem_cons] at hp
          rcases hp with hp | hp
          · subst hp
            exact ⟨hvs, by rw [hdropi]; exact hvrest⟩
          · exact hranges p hp
        · rw [if_neg hf,
            if_pos ⟨hex_land hx1, hex_land hx2, hex_land hx3, hex_land hx4⟩, hpr]
          refine ⟨_, rfl, ?_⟩
          intro p hp
          simp only [List.mem_cons] at hp
          rcases hp with hp | hp
          · subst hp
            exact ⟨hvs, by rw [hdropi]; exact hvrest⟩
          · exact hranges p hp
      · have hmr : markersOk r = true := by
          have := hm rfl
          rwa [markersOk_ef_mismatch hnm, markersOk_cons_ne hc1ne,
            markersOk_cons_ne hc2ne] at this
        rw [loop_lo_mismatch r index start htb hnm]
        exact ih r.length (by rw [← hn]; simp only [List.length_cons]; omega) bytes table
          true r (index + 3) start rfl htg hdropi3 hvr hvs (fun _ => hmr)
    · have htb : tableGet table b = Escape.NONE := by
        rw [htg]
        by_cases hbe : b = 0xEF
        · subst hbe
          have hlf : lone = false := by
            cases lone
            · rfl
            · exact absurd ⟨rfl, rfl⟩ hEFlone
          subst hlf
          decide
        · rw [escFn_ne_ef _ _ hbe]
          exact escCore_NONE_of b (by omega) (by omega) (by omega)
      have hbne : lone = true → b ≠ 0xEF := by
        intro hl hbe
        exact hEFlone ⟨hl, hbe⟩
      have hmr : lone = true → markersOk r = true := by
        intro hl
        have := hm hl
        rwa [markersOk_cons_ne (hbne hl), markersOk_cons_ne hc1ne,
          markersOk_cons_ne hc2ne] at this
      rw [loop_cons_none _ index start htb, loop_cons_none _ (index + 1) start htc1,
        loop_cons_none _ (index + 1 + 1) start htc2]
      have h13 : index + 1 + 1 + 1 = index + 3 := by omega
      rw [h13]
      exact ih r.length (by rw [← hn]; simp only [List.length_cons]; omega) bytes table
        lone r (index + 3) start rfl htg hdropi3 hvr hvs hmr
  · -- 4-byte character
    subst hre
    obtain ⟨hc1ne, hc1N⟩ := cont_facts hc1
    obtain ⟨hc2ne, hc2N⟩ := cont_facts hc2
    obtain ⟨hc3ne, hc3N⟩ := cont_facts hc3
    have hbne : b ≠ 0xEF := by omega
    have htb : tableGet table b = Escape.NONE := by
      rw [htg, escFn_ne_ef _ _ hbne]
      exact escCore_NONE_of b (by omega) (by omega) (by omega)
    have htc1 : tableGet table c1 = Escape.NONE := by
      rw [htg, escFn_ne_ef _ _ hc1ne, hc1N]
    have htc2 : tableGet table c2 = Escape.NONE := by
      rw [htg, escFn_ne_ef _ _ hc2ne, hc2N]
    have htc3 : tableGet table c3 = Escape.NONE := by
      rw [htg, escFn_ne_ef _ _ hc3ne, hc3N]
    have hdropi4 : bytes.drop (index + 4) = r := by
      have hdd : bytes.drop (index + 4) = (bytes.drop index).drop 4 := by
        rw [List.drop_drop]
      rw [hdd, hdropi]
      rfl
    have hmr : lone = true → markersOk r = true := by
      intro hl
      have := hm hl
      rwa [markersOk_cons_ne hbne, markersOk_cons_ne hc1ne, markersOk_cons_ne hc2ne,
        markersOk_cons_ne hc3ne] at this
    rw [loop_cons_none _ index start htb, loop_cons_none _ (index + 1) start htc1,
      loop_cons_none _ (index + 1 + 1) start htc2,
      loop_cons_none _ (index + 1 + 1 + 1) start htc3]
    have h14 : index + 1 + 1 + 1 + 1 = index + 4 := by omega
    rw [h14]
    exact ih r.length (by rw [← hn]; simp only [List.length_cons]; omega) bytes table
      lone r (index + 4) start rfl htg hdropi4 hvr hvs hmr

theorem scanStd_verbatim (s : List Nat)
    (h : ∀ b ∈ s, tableGet ESCAPE b = Escape.NONE) :
    scanBytes ESCAPE false s = some s := by
  induction s with
  | nil => exact scan_nil _ _
  | cons b r ihr =>
    rw [scan_cons_none r (h b (List.mem_cons_self b r)),
      ihr (fun x hx => h x (List.mem_cons_of_mem b hx))]
    rfl

theorem decide_table_ESCAPE : decide (ESCAPE = ESCAPE_LONE_SURROGATES) = false := by
  decide

/-! ## The claims -/

/-- Claim C10: for every input string, the pre-validated-safe entry point
(`JsonSafeString`) writes exactly one opening quote byte, the bytes of the
input completely unmodified, and one closing quote byte, with no
classification or escaping of any byte. -/
theorem claim_C10 (s : List Nat) :
    JsonSafeString_serialize s = [0x22] ++ s ++ [0x22] := rfl

/-- Claim C8: the two classification tables agree at every index 0–255 except
0xEF, where the plain table classifies no-escape (`NONE`) and the
lone-surrogate table classifies `LO`; and in both tables every byte
0x20–0xFF other than 0x22, 0x5C and the special 0xEF case is classified
no-escape. -/
theorem claim_C8 :
    (∀ i < 256, i ≠ 0xEF → tableGet ESCAPE i = tableGet ESCAPE_LONE_SURROGATES i) ∧
    tableGet ESCAPE 0xEF = Escape.NONE ∧
    tableGet ESCAPE_LONE_SURROGATES 0xEF = Escape.LO ∧
    (∀ i < 256, (0x20 ≤ i ∧ i ≠ 0x22 ∧ i ≠ 0x5C ∧ i ≠ 0xEF) →
      tableGet ESCAPE i = Escape.NONE ∧
        tableGet ESCAPE_LONE_SURROGATES i = Escape.NONE) := by
  exact ⟨by decide, by decide, by decide, by decide⟩

theorem claim_C8_witness :
    (0x41 : Nat) ≠ 0xEF ∧
    tableGet ESCAPE 0x41 = tableGet ESCAPE_LONE_SURROGATES 0x41 ∧
    tableGet ESCAPE 0x41 = Escape.NONE :=
  ⟨by decide, claim_C8.1 0x41 (by decide) (by decide),
    (claim_C8.2.2.2 0x41 (by decide) (by decide)).1⟩

/-- Claim C2: in both scanning modes, each byte 0x08/0x09/0x0A/0x0C/0x0D
produces `\b`/`\t`/`\n`/`\f`/`\r`, 0x22 produces `\"`, 0x5C produces `\\`,
and every other byte below 0x20 produces the six-byte `\u00XX` escape with
two lowercase hex digits (`expectedEscapeBytes` spells out these expected
escape bytes). -/
theorem claim_C2 (b : Nat) (hb : b < 0x20 ∨ b = 0x22 ∨ b = 0x5C) :
    write_str [b] ESCAPE = some ([0x22] ++ expectedEscapeBytes b ++ [0x22]) ∧
    write_str [b] ESCAPE_LONE_SURROGATES =
      some ([0x22] ++ expectedEscapeBytes b ++ [0x22]) := by
  rcases hb with hb | hb | hb
  · exact (by decide : ∀ b' < 0x20,
      write_str [b'] ESCAPE = some ([0x22] ++ expectedEscapeBytes b' ++ [0x22]) ∧
      write_str [b'] ESCAPE_LONE_SURROGATES =
        some ([0x22] ++ expectedEscapeBytes b' ++ [0x22])) b hb
  · subst hb
    exact ⟨by decide, by decide⟩
  · subst hb
    exact ⟨by decide, by decide⟩

theorem claim_C2_witness :
    ((0x0B : Nat) < 0x20 ∨ (0x0B : Nat) = 0x22 ∨ (0x0B : Nat) = 0x5C) ∧
    (write_str [0x0B] ESCAPE = some ([0x22] ++ expectedEscapeBytes 0x0B ++ [0x22]) ∧
     write_str [0x0B] ESCAPE_LONE_SURROGATES =
       some ([0x22] ++ expectedEscapeBytes 0x0B ++ [0x22])) :=
  ⟨Or.inl (by decide), claim_C2 0x0B (Or.inl (by decide))⟩

/-- Claim C5: for every valid UTF-8 string with no byte in 0x00–0x1F, no
quote, no backslash, and no occurrence of U+FFFD, all three entry points
produce exactly one opening quote, the input bytes unchanged, and one
closing quote (so in particular the empty string yields `""`). -/
theorem claim_C5 (s : List Nat) (hv : utf8Valid s = true)
    (hesc : ∀ b ∈ s, ¬(b ≤ 0x1F) ∧ b ≠ 0x22 ∧ b ≠ 0x5C) (hff : noFFFD s = true) :
    JsonSafeString_serialize s = [0x22] ++ s ++ [0x22] ∧
    str_serialize s = some ([0x22] ++ s ++ [0x22]) ∧
    LoneSurrogatesString_serialize s = some ([0x22] ++ s ++ [0x22]) := by
  have hall : ∀ b ∈ s, tableGet ESCAPE b = Escape.NONE := by
    intro b hbs
    obtain ⟨h1, h2, h3⟩ := hesc b hbs
    rw [tableGet_ESCAPE]
    by_cases hbe : b = 0xEF
    · subst hbe; decide
    · rw [escFn_ne_ef _ _ hbe]
      exact escCore_NONE_of b (by omega) h2 h3
  have hS : scanBytes ESCAPE false s = some s := scanStd_verbatim s hall
  have hL : scanBytes ESCAPE_LONE_SURROGATES true s = some s := by
    have h := scanL_append s.length s rfl hv hff []
    rw [List.append_nil, hS, scan_nil] at h
    simpa using h
  refine ⟨rfl, ?_, ?_⟩
  · unfold str_serialize
    rw [write_str_ESCAPE_eq, hS]
    rfl
  · unfold LoneSurrogatesString_serialize
    rw [write_str_LONE_eq, hL]
    rfl

theorem claim_C5_witness :
    JsonSafeString_serialize [0x61, 0xC3, 0xA9] = [0x22] ++ [0x61, 0xC3, 0xA9] ++ [0x22] ∧
    str_serialize [0x61, 0xC3, 0xA9] = some ([0x22] ++ [0x61, 0xC3, 0xA9] ++ [0x22]) ∧
    LoneSurrogatesString_serialize [0x61, 0xC3, 0xA9] =
      some ([0x22] ++ [0x61, 0xC3, 0xA9] ++ [0x22]) :=
  claim_C5 [0x61, 0xC3, 0xA9] (by simp [utf8Valid, contB]) (by decide) (by decide)

/-- Claim C6: for every valid UTF-8 input containing no occurrence of the
character U+FFFD, lone-surrogate-aware mode produces byte-for-byte the same
output as standard mode (in particular a character starting with byte 0xEF
whose following bytes differ from the U+FFFD encoding is copied verbatim). -/
theorem claim_C6 (s : List Nat) (hv : utf8Valid s = true) (hff : noFFFD s = true) :
    LoneSurrogatesString_serialize s = str_serialize s := by
  unfold LoneSurrogatesString_serialize str_serialize
  rw [write_str_LONE_eq, write_str_ESCAPE_eq]
  have h := scanL_append s.length s rfl hv hff []
  rw [List.append_nil, scan_nil] at h
  rw [h]
  cases scanBytes ESCAPE false s <;> simp

theorem claim_C6_witness :
    utf8Valid [0xEF, 0xA0, 0x80, 0x0A] = true ∧
    noFFFD [0xEF, 0xA0, 0x80, 0x0A] = true ∧
    LoneSurrogatesString_serialize [0xEF, 0xA0, 0x80, 0x0A] =
      str_serialize [0xEF, 0xA0, 0x80, 0x0A] :=
  ⟨by simp [utf8Valid, contB], by decide,
    claim_C6 [0xEF, 0xA0, 0x80, 0x0A] (by simp [utf8Valid, contB]) (by decide)⟩

/-- Claim C1: in lone-surrogate-aware mode, every well-formed 7-byte marker
(U+FFFD bytes followed by 4 ASCII hex digits) is resolved to `markerOut`
(the literal U+FFFD bytes when the digits spell `fffd`, otherwise `\u`
followed by the digit bytes verbatim), consuming exactly the 7 marker bytes;
the scan resumes independently after them, at any position (start, middle or
end, as `u`, `w`, `v` may each be empty), and multiple markers are resolved
independently.  The surrounding marker-free segments `u`, `w` are serialized
exactly as in standard mode. -/
theorem claim_C1 (u w v : List Nat) (d1 d2 d3 d4 e1 e2 e3 e4 : Nat)
    (hu1 : utf8Valid u = true) (hu2 : noFFFD u = true)
    (hw1 : utf8Valid w = true) (hw2 : noFFFD w = true)
    (hd1 : isHexDigit d1 = true) (hd2 : isHexDigit d2 = true)
    (hd3 : isHexDigit d3 = true) (hd4 : isHexDigit d4 = true)
    (he1 : isHexDigit e1 = true) (he2 : isHexDigit e2 = true)
    (he3 : isHexDigit e3 = true) (he4 : isHexDigit e4 = true) :
    write_str (u ++ [0xEF, 0xBF, 0xBD, d1, d2, d3, d4] ++ w ++
        [0xEF, 0xBF, 0xBD, e1, e2, e3, e4] ++ v) ESCAPE_LONE_SURROGATES =
      ((scanBytes ESCAPE false u).bind fun a =>
        (scanBytes ESCAPE false w).bind fun b =>
          (scanBytes ESCAPE_LONE_SURROGATES true v).map fun c =>
            [0x22] ++ a ++ markerOut d1 d2 d3 d4 ++ b ++ markerOut e1 e2 e3 e4 ++
              c ++ [0x22]) := by
  rw [write_str_LONE_eq]
  simp only [List.append_assoc]
  rw [scanL_append u.length u rfl hu1 hu2]
  rw [show ([0xEF, 0xBF, 0xBD, d1, d2, d3, d4] ++ (w ++
      ([0xEF, 0xBF, 0xBD, e1, e2, e3, e4] ++ v)) : List Nat) =
    [0xEF, 0xBF, 0xBD, d1, d2, d3, d4] ++ (w ++
      ([0xEF, 0xBF, 0xBD, e1, e2, e3, e4] ++ v)) from rfl]
  rw [scanL_marker _ hd1 hd2 hd3 hd4]
  rw [scanL_append w.length w rfl hw1 hw2]
  rw [scanL_marker _ he1 he2 he3 he4]
  cases scanBytes ESCAPE false u <;> cases scanBytes ESCAPE false w <;>
    cases scanBytes ESCAPE_LONE_SURROGATES true v <;> simp

theorem claim_C1_witness :
    write_str ([0x5F] ++ [0xEF, 0xBF, 0xBD, 0x64, 0x38, 0x33, 0x34] ++ [0x61] ++
        [0xEF, 0xBF, 0xBD, 0x66, 0x66, 0x66, 0x64] ++ [0x62]) ESCAPE_LONE_SURROGATES =
      ((scanBytes ESCAPE false [0x5F]).bind fun a =>
        (scanBytes ESCAPE false [0x61]).bind fun b =>
          (scanBytes ESCAPE_LONE_SURROGATES true [0x62]).map fun c =>
            [0x22] ++ a ++ markerOut 0x64 0x38 0x33 0x34 ++ b ++
              markerOut 0x66 0x66 0x66 0x64 ++ c ++ [0x22]) :=
  claim_C1 [0x5F] [0x61] [0x62] 0x64 0x38 0x33 0x34 0x66 0x66 0x66 0x64
    (by simp [utf8Valid]) (by decide) (by simp [utf8Valid]) (by decide) (by decide)
    (by decide) (by decide) (by decide) (by decide) (by decide) (by decide) (by decide)

/-- Counterexample to claim C4 as stated: a marker followed by 4 ASCII bytes
that are NOT hex digits (`zzzz`) does not trigger the fatal assertion; the
serializer silently emits `"\uzzzz"`. -/
theorem claim_C4_counterexample :
    isHexDigit 0x7A = false ∧
    write_str [0xEF, 0xBF, 0xBD, 0x7A, 0x7A, 0x7A, 0x7A] ESCAPE_LONE_SURROGATES =
      some [0x22, 0x5C, 0x75, 0x7A, 0x7A, 0x7A, 0x7A, 0x22] :=
  ⟨by decide, by decide⟩

/-- Claim C4 amended: the fatal assertion (modelled as `none`) fires exactly
when, the digits not spelling `fffd`, one of the 4 bytes after a U+FFFD
occurrence has its high bit set (is non-ASCII); 4 ASCII bytes — hex digits
or not — are accepted and emitted verbatim after `\u`. -/
theorem claim_C4 (u v : List Nat) (d1 d2 d3 d4 : Nat)
    (hu1 : utf8Valid u = true) (hu2 : noFFFD u = true)
    (hne : [d1, d2, d3, d4] ≠ [0x66, 0x66, 0x66, 0x64]) :
    (¬(d1 &&& 0x80 = 0 ∧ d2 &&& 0x80 = 0 ∧ d3 &&& 0x80 = 0 ∧ d4 &&& 0x80 = 0) →
      write_str (u ++ [0xEF, 0xBF, 0xBD, d1, d2, d3, d4] ++ v)
        ESCAPE_LONE_SURROGATES = none) ∧
    ((d1 &&& 0x80 = 0 ∧ d2 &&& 0x80 = 0 ∧ d3 &&& 0x80 = 0 ∧ d4 &&& 0x80 = 0) →
      write_str (u ++ [0xEF, 0xBF, 0xBD, d1, d2, d3, d4] ++ v)
          ESCAPE_LONE_SURROGATES =
        ((scanBytes ESCAPE false u).bind fun a =>
          (scanBytes ESCAPE_LONE_SURROGATES true v).map fun c =>
            [0x22] ++ a ++ [0x5C, 0x75, d1, d2, d3, d4] ++ c ++ [0x22])) := by
  have htLb : tableGet ESCAPE_LONE_SURROGATES 0xEF = Escape.LO := by
    rw [tableGet_LONE]; decide
  constructor
  · intro hna
    rw [write_str_LONE_eq]
    simp only [List.append_assoc]
    rw [scanL_append u.length u rfl hu1 hu2]
    rw [show ([0xEF, 0xBF, 0xBD, d1, d2, d3, d4] ++ v : List Nat) =
      0xEF :: 0xBF :: 0xBD :: d1 :: d2 :: d3 :: d4 :: v from rfl]
    rw [scan_lo_marker d1 d2 d3 d4 v htLb, if_neg hne, if_neg hna]
    cases scanBytes ESCAPE false u <;> simp
  · intro ha
    rw [write_str_LONE_eq]
    simp only [List.append_assoc]
    rw [scanL_append u.length u rfl hu1 hu2]
    rw [show ([0xEF, 0xBF, 0xBD, d1, d2, d3, d4] ++ v : List Nat) =
      0xEF :: 0xBF :: 0xBD :: d1 :: d2 :: d3 :: d4 :: v from rfl]
    rw [scan_lo_marker d1 d2 d3 d4 v htLb, if_neg hne, if_pos ha]
    cases scanBytes ESCAPE false u <;>
      cases scanBytes ESCAPE_LONE_SURROGATES true v <;> simp

theorem claim_C4_witness :
    write_str ([] ++ [0xEF, 0xBF, 0xBD, 0xEF, 0xBF, 0xBD, 0x61] ++ [])
      ESCAPE_LONE_SURROGATES = none :=
  (claim_C4 [] [] 0xEF 0xBF 0xBD 0x61 (by simp [utf8Valid]) (by decide) (by decide)).1
    (by decide)

/-- Counterexample to claim C3 as stated: for the valid UTF-8 input
U+FFFD followed by four `"` bytes (a malformed marker whose "digits" are
ASCII quotes), lone-surrogate mode emits `"\u""""` + `"`, whose total count
of unescaped quote bytes is 6, not the 2 the claim requires. -/
theorem claim_C3_counterexample :
    utf8Valid [0xEF, 0xBF, 0xBD, 0x22, 0x22, 0x22, 0x22] = true ∧
    write_str [0xEF, 0xBF, 0xBD, 0x22, 0x22, 0x22, 0x22] ESCAPE_LONE_SURROGATES =
      some [0x22, 0x5C, 0x75, 0x22, 0x22, 0x22, 0x22, 0x22] ∧
    uqCount [0x22, 0x5C, 0x75, 0x22, 0x22, 0x22, 0x22, 0x22] false = 6 :=
  ⟨by simp [utf8Valid, contB], by decide, by decide⟩

/-- Claim C3 amended: the quote invariant holds for every input in standard
mode, and in lone-surrogate mode for every valid UTF-8 input satisfying the
documented marker contract (every U+FFFD occurrence followed by 4 ASCII hex
digits): the output is one unescaped opening quote, a body with zero
unescaped quotes that leaves the escape flag clear, and one unescaped
closing quote. -/
theorem claim_C3 (s : List Nat) :
    (∃ mid, write_str s ESCAPE = some ([0x22] ++ mid ++ [0x22]) ∧
      uqCount mid false = 0 ∧ flagAfter mid false = false) ∧
    (utf8Valid s = true → markersOk s = true →
      ∃ mid, write_str s ESCAPE_LONE_SURROGATES = some ([0x22] ++ mid ++ [0x22]) ∧
        uqCount mid false = 0 ∧ flagAfter mid false = false) := by
  constructor
  · obtain ⟨o, ho, _, hq⟩ := scanStd_master s
    exact ⟨o, by rw [write_str_ESCAPE_eq, ho]; rfl, hq.1, hq.2⟩
  · intro hv hm
    obtain ⟨o, ho, hq⟩ := scanL_master s.length s rfl hv hm
    exact ⟨o, by rw [write_str_LONE_eq, ho]; rfl, hq.1, hq.2⟩

theorem claim_C3_witness :
    ∃ mid, write_str [0x61, 0x22] ESCAPE_LONE_SURROGATES =
        some ([0x22] ++ mid ++ [0x22]) ∧
      uqCount mid false = 0 ∧ flagAfter mid false = false :=
  (claim_C3 [0x61, 0x22]).2 (by simp [utf8Valid]) (by decide)

/-- Counterexample to claim C7 as stated: the valid UTF-8 input U+FFFD
followed by `zzzz` contains no occurrence of the 7-byte convention (the
digits are not hex), yet lone-surrogate mode emits body `\uzzzz`, on which
standard JSON string decoding fails — the round trip does not recover the
input. -/
theorem claim_C7_counterexample :
    hasMarker [0xEF, 0xBF, 0xBD, 0x7A, 0x7A, 0x7A, 0x7A] = false ∧
    utf8Valid [0xEF, 0xBF, 0xBD, 0x7A, 0x7A, 0x7A, 0x7A] = true ∧
    write_str [0xEF, 0xBF, 0xBD, 0x7A, 0x7A, 0x7A, 0x7A] ESCAPE_LONE_SURROGATES =
      some ([0x22] ++ [0x5C, 0x75, 0x7A, 0x7A, 0x7A, 0x7A] ++ [0x22]) ∧
    unescape [0x5C, 0x75, 0x7A, 0x7A, 0x7A, 0x7A] = none :=
  ⟨by decide, by simp [utf8Valid, contB], by decide, by decide⟩

/-- Claim C7 amended: applying standard JSON string decoding to the writer's
output body recovers the input exactly — in standard mode for every input,
and in lone-surrogate mode for every valid UTF-8 input containing no
occurrence of U+FFFD at all. -/
theorem claim_C7 (s : List Nat) :
    (∃ body, write_str s ESCAPE = some ([0x22] ++ body ++ [0x22]) ∧
      unescape body = some s) ∧
    (utf8Valid s = true → noFFFD s = true →
      ∃ body, write_str s ESCAPE_LONE_SURROGATES = some ([0x22] ++ body ++ [0x22]) ∧
        unescape body = some s) := by
  constructor
  · obtain ⟨o, ho, hdec, _⟩ := scanStd_master s
    exact ⟨o, by rw [write_str_ESCAPE_eq, ho]; rfl, hdec⟩
  · intro hv hff
    obtain ⟨o, ho, hdec, _⟩ := scanStd_master s
    have heq : scanBytes ESCAPE_LONE_SURROGATES true s = scanBytes ESCAPE false s := by
      have h := scanL_append s.length s rfl hv hff []
      rw [List.append_nil, scan_nil] at h
      rw [h]
      cases scanBytes ESCAPE false s <;> simp
    exact ⟨o, by rw [write_str_LONE_eq, heq, ho]; rfl, hdec⟩

theorem claim_C7_witness :
    ∃ body, write_str [0x66, 0x0A] ESCAPE_LONE_SURROGATES =
        some ([0x22] ++ body ++ [0x22]) ∧
      unescape body = some [0x66, 0x0A] :=
  (claim_C7 [0x66, 0x0A]).2 (by simp [utf8Valid]) (by decide)

/-- Claim C9: under the documented preconditions (valid UTF-8 input; in
lone-surrogate mode every U+FFFD occurrence followed by 4 ASCII hex digits)
serialization is total — it returns a result instead of panicking or reading
past the end (any out-of-bounds lookahead is modelled as `none`) — and every
verbatim bulk append covers a `(start, end)` byte range both of whose
endpoints lie on UTF-8 character boundaries of the input (the suffixes from
`start` and from `end` are themselves valid UTF-8, so no multi-byte sequence
is split and 0xEF is only ever copied after the full 7-byte lookahead is
resolved). -/
theorem claim_C9 (s : List Nat) (hv : utf8Valid s = true) :
    ((write_str s ESCAPE).isSome = true ∧
      ∃ rs, write_str_ranges s ESCAPE = some rs ∧
        ∀ p ∈ rs, utf8Valid (s.drop p.1) = true ∧ utf8Valid (s.drop p.2) = true) ∧
    (markersOk s = true →
      (write_str s ESCAPE_LONE_SURROGATES).isSome = true ∧
      ∃ rs, write_str_ranges s ESCAPE_LONE_SURROGATES = some rs ∧
        ∀ p ∈ rs, utf8Valid (s.drop p.1) = true ∧ utf8Valid (s.drop p.2) = true) := by
  constructor
  · have htg : ∀ b, tableGet ESCAPE b =
        escFn (if (false : Bool) = true then Escape.LO else Escape.NONE) b := by
      intro b
      rw [show (if (false : Bool) = true then Escape.LO else Escape.NONE) =
        Escape.NONE from rfl]
      exact tableGet_ESCAPE b
    obtain ⟨pr, hpr, hranges⟩ := loop_ranges s.length s ESCAPE false s 0 0 rfl htg
      (by simp) hv (by simpa using hv) (fun h => absurd h (by decide))
    constructor
    · unfold write_str
      rw [decide_table_ESCAPE, hpr]
      rfl
    · refine ⟨pr.2, ?_, hranges⟩
      unfold write_str_ranges
      rw [decide_table_ESCAPE, hpr]
      rfl
  · intro hm
    have htg : ∀ b, tableGet ESCAPE_LONE_SURROGATES b =
        escFn (if (true : Bool) = true then Escape.LO else Escape.NONE) b := by
      intro b
      rw [show (if (true : Bool) = true then Escape.LO else Escape.NONE) =
        Escape.LO from rfl]
      exact tableGet_LONE b
    obtain ⟨pr, hpr, hranges⟩ := loop_ranges s.length s ESCAPE_LONE_SURROGATES true s 0 0
      rfl htg (by simp) hv (by simpa using hv) (fun _ => hm)
    have hd : (decide (ESCAPE_LONE_SURROGATES = ESCAPE_LONE_SURROGATES)) = true := by
      simp
    constructor
    · unfold write_str
      rw [hd, hpr]
      rfl
    · refine ⟨pr.2, ?_, hranges⟩
      unfold write_str_ranges
      rw [hd, hpr]
      rfl

theorem claim_C9_witness :
    (write_str [0x61, 0xEF, 0xBF, 0xBD, 0x64, 0x38, 0x33, 0x34]
        ESCAPE_LONE_SURROGATES).isSome = true ∧
    ∃ rs, write_str_ranges [0x61, 0xEF, 0xBF, 0xBD, 0x64, 0x38, 0x33, 0x34]
        ESCAPE_LONE_SURROGATES = some rs ∧
      ∀ p ∈ rs,
        utf8Valid (List.drop p.1 [0x61, 0xEF, 0xBF, 0xBD, 0x64, 0x38, 0x33, 0x34]) = true ∧
        utf8Valid (List.drop p.2 [0x61, 0xEF, 0xBF, 0xBD, 0x64, 0x38, 0x33, 0x34]) = true :=
  (claim_C9 [0x61, 0xEF, 0xBF, 0xBD, 0x64, 0x38, 0x33, 0x34]
    (by simp [utf8Valid, contB])).2 (by decide)
